import Mathlib

/-!
# Verification of the live meet-analysis scoring engine

A shallow embedding of the analytical core of the repository
(`src/scoring.py`, together with the mark parser `_mark_to_seconds` of
`src/scraper.py`), and proofs about it.

Python floats are modelled by exact rationals (`ℚ`), Python `dict`s by
insertion-ordered association lists over `String` keys, Python object
identity (`id(...)`) by the position of an entry in the event's entry
list (entries are `enum`-indexed), and the global random source by an
injected stream `rng : ℕ → ℚ` of draws consumed in order.  Divisions
performed by the Python code are modelled in an `Option` monad
(`divQ?`), `none` standing for a `ZeroDivisionError`; likewise
`list.pop(i)` is modelled by an `Option`-valued indexed removal, `none`
standing for an `IndexError`.

The repository's `data_model.py` and `config.py` are not under `src/`;
the definitions that stand in for them are each marked
`Modelled from the spec:` and follow the specification's words.
-/

namespace LiveMeet

/-! ## Python string primitives used by `scraper._normalize_mark` / `_mark_to_seconds` -/

/-- Characters Python's `str.strip` removes: ASCII whitespace and NBSP
(the only whitespace characters that occur in scraped marks). -/
def pyIsSpace (c : Char) : Bool :=
  c.toNat = 32 || c.toNat = 9 || c.toNat = 10 || c.toNat = 13 ||
  c.toNat = 11 || c.toNat = 12 || c.toNat = 160

/-- Python `str.strip()` on a character list. -/
def pyStripL (l : List Char) : List Char :=
  ((l.dropWhile pyIsSpace).reverse.dropWhile pyIsSpace).reverse

/-- Python `str.upper()` (marks are ASCII). -/
def pyUpper (s : String) : String := String.mk (s.data.map Char.toUpper)

/-- Python `str.lower()` (event names are ASCII). -/
def pyLower (s : String) : String := String.mk (s.data.map Char.toLower)

/-- `mark.replace("\xa0", "")`: removes every NBSP character. -/
def removeNbsp (l : List Char) : List Char := l.filter (fun c => c.toNat != 160)

/-- `mark.replace("  ", " ")`: left-to-right non-overlapping replacement of
two spaces by one. -/
def collapseDoubleSpace : List Char → List Char
  | [] => []
  | [c] => [c]
  | a :: b :: rest =>
    if a = ' ' ∧ b = ' ' then ' ' :: collapseDoubleSpace rest
    else a :: collapseDoubleSpace (b :: rest)

/-- `scraper._normalize_mark`: strip, drop NBSPs, collapse double spaces. -/
def _normalize_mark (mark : String) : String :=
  String.mk (collapseDoubleSpace (removeNbsp (pyStripL mark.data)))

/-- `re.sub(r"\s*\(.*\)", "", mark)` on a single-line string.  The greedy
`.*` makes the (unique possible) match run from the first `(` that has a
later `)` — extended left over contiguous whitespace — to the last `)` of
the string; after removing it no further `(`…`)` pair can remain. -/
def pyRemoveParen (l : List Char) : List Char :=
  match l.findIdx? (fun c => c == '('), l.reverse.findIdx? (fun c => c == ')') with
  | some i, some jr =>
    let j := l.length - 1 - jr
    if i < j then ((l.take i).reverse.dropWhile pyIsSpace).reverse ++ l.drop (j + 1)
    else l
  | _, _ => l

/-- `re.sub(r"[a-zA-Z]$", "", mark)`: drop one trailing ASCII letter. -/
def stripTrailingAlpha (l : List Char) : List Char :=
  match l.getLast? with
  | some c => if c.isAlpha then l.dropLast else l
  | none => l

/-- Numeric value of a digit string (most significant first). -/
def digitsVal (l : List Char) : ℕ := l.foldl (fun n c => n * 10 + (c.toNat - 48)) 0

/-- Python `float()` on the decimal forms that occur in marks:
`[+-]? (digits [. digits?] | . digits) [eE [+-] digits]`, surrounding
whitespace stripped.  (The exotic `float` spellings `inf`, `nan` and
digit underscores never parse a mark and are not modelled.) -/
def pyFloatCore? (l : List Char) : Option ℚ :=
  let ip := l.takeWhile Char.isDigit
  let r1 := l.dropWhile Char.isDigit
  let fpr : List Char × List Char :=
    match r1 with
    | '.' :: t => (t.takeWhile Char.isDigit, t.dropWhile Char.isDigit)
    | _ => ([], r1)
  let fp := fpr.1
  let r2 := fpr.2
  if ip.isEmpty && fp.isEmpty then none
  else
    let mant : ℚ := (digitsVal ip : ℚ) + (digitsVal fp : ℚ) / ((10 : ℚ) ^ fp.length)
    match r2 with
    | [] => some mant
    | e :: t =>
      if e == 'e' || e == 'E' then
        let st : ℤ × List Char :=
          match t with
          | '+' :: u => (1, u)
          | '-' :: u => (-1, u)
          | _ => (1, t)
        if st.2 ≠ [] ∧ st.2.all Char.isDigit then
          some (mant * (10 : ℚ) ^ (st.1 * (digitsVal st.2 : ℤ)))
        else none
      else none

/-- Python `float()` on a character list (sign handling and stripping). -/
def pyFloatL? (l : List Char) : Option ℚ :=
  match pyStripL l with
  | '+' :: t => pyFloatCore? t
  | '-' :: t => (pyFloatCore? t).map (fun q => -q)
  | t => pyFloatCore? t

/-- Python `str.split(sep)` for a one-character separator. -/
def splitOnChar (c : Char) : List Char → List (List Char)
  | [] => [[]]
  | a :: rest =>
    match splitOnChar c rest with
    | [] => [[]]
    | h :: t => if a = c then [] :: h :: t else (a :: h) :: t

/-- `re.match(r"^\d+-\d+", mark) is not None`. -/
def matchesFeetInches (l : List Char) : Bool :=
  match l.takeWhile Char.isDigit, l.dropWhile Char.isDigit with
  | _ :: _, '-' :: c :: _ => c.isDigit
  | _, _ => false

/-- `scraper._mark_to_seconds`: convert a mark string to a comparable
rational, `none` for unparseable marks.  Feet-inch field marks come out
NEGATED (`-(feet*12+inches)`); metric field marks fall through to the
plain `float()` branch and stay positive (the negation announced in the
source comment for metric field marks is never performed). -/
def _mark_to_seconds (mark : String) : Option ℚ :=
  let m := pyUpper (_normalize_mark mark)
  if m == "DNS" || m == "DNF" || m == "DQ" || m == "NH" || m == "NM" ||
     m == "FOUL" || m == "" then none
  else
    let l := pyStripL (stripTrailingAlpha (pyRemoveParen m.data))
    if matchesFeetInches l then
      match splitOnChar '-' l with
      | p0 :: p1 :: _ =>
        match pyFloatL? p0, pyFloatL? p1 with
        | some feet, some inches => some (-(feet * 12 + inches))
        | _, _ => none
      | _ => none
    else if l.contains ':' then
      match splitOnChar ':' l with
      | p0 :: p1 :: _ =>
        match pyFloatL? p0, pyFloatL? p1 with
        | some minutes, some seconds => some (minutes * 60 + seconds)
        | _, _ => none
      | _ => none
    else pyFloatL? l

/-! ## Data model

Modelled from the spec: `data_model.py` is not under `src/`.  Section 3
of the specification describes the snapshot types the core reads; only
the fields the scoring layer touches are carried. -/

/-- Modelled from the spec: competition gender of an event. -/
inductive Gender where
  | men
  | women
deriving DecidableEq, Repr

/-- Modelled from the spec: round of an event (preliminary or final). -/
inductive RoundType where
  | prelim
  | final
deriving DecidableEq, Repr

/-- Modelled from the spec: completion status of an event
(scheduled / in-progress / final). -/
inductive EventStatus where
  | scheduled
  | in_progress
  | final
deriving DecidableEq, Repr

/-- Modelled from the spec: an athlete record (name, team, optional seed
mark, optional final mark/place). -/
structure Athlete where
  name : String
  team : String
  seed_mark : Option String := none
  final_mark : Option String := none
  final_place : Option ℕ := none
deriving DecidableEq, Repr

/-- Modelled from the spec: one athlete's participation in one event,
carrying the externally chosen `effective_seed`. -/
structure EventEntry where
  athlete : Athlete
  effective_seed : Option String := none
deriving DecidableEq, Repr

/-- Modelled from the spec: a single round of one event for one gender;
`base_event_name` is the discipline name the keyword matches run on. -/
structure MeetEvent where
  event_name : String
  base_event_name : String
  gender : Gender
  round_type : RoundType
  status : EventStatus
  entries : List EventEntry := []
deriving DecidableEq, Repr

/-- Modelled from the spec: final standings of a combined event;
`is_complete` is the completion flag the tabulator checks. -/
structure CombinedEventResult where
  event_name : String
  gender : Gender
  athletes : List Athlete := []
  is_complete : Bool := false
deriving DecidableEq, Repr

/-- Modelled from the spec: per-team, per-gender accumulator.  The last
three fields are filled in by the orchestrator. -/
structure TeamScore where
  team : String
  gender : Gender
  actual_points : ℕ := 0
  events_scored : List String := []
  optimistic_ceiling : ℕ := 0
  seed_projection : ℤ := 0
  win_probability : ℚ := 0
deriving DecidableEq, Repr

/-- Modelled from the spec: the full snapshot (all events, all combined
events). -/
structure MeetState where
  events : List MeetEvent := []
  combined_events : List CombinedEventResult := []
deriving DecidableEq, Repr

/-- Modelled from the spec: the read-only view "completed finals for
gender G" — final-round events of that gender already in FINAL status. -/
def get_completed_finals (state : MeetState) (gender : Gender) : List MeetEvent :=
  state.events.filter (fun e =>
    decide (e.gender = gender) && decide (e.round_type = RoundType.final) &&
    decide (e.status = EventStatus.final))

/-- Modelled from the spec: the read-only view "upcoming finals for
gender G" — "any final-round event not yet in FINAL status with at least
one entrant". -/
def get_upcoming_finals (state : MeetState) (gender : Gender) : List MeetEvent :=
  state.events.filter (fun e =>
    decide (e.gender = gender) && decide (e.round_type = RoundType.final) &&
    decide (e.status ≠ EventStatus.final) && !e.entries.isEmpty)

/-! ## Scoring table

Modelled from the spec: `config.py`'s `PLACE_POINTS` is not under
`src/`.  Section 6 describes it as "a mapping from integer place 1..8 to
a positive integer, strictly decreasing"; it is modelled as an arbitrary
function `pp` on places together with the predicate `ValidTable`. -/

/-- `p in PLACE_POINTS`: the table's domain is the places 1..8. -/
def ppMem (p : ℕ) : Bool := decide (1 ≤ p) && decide (p ≤ 8)

/-- `PLACE_POINTS.get(p, 0)`. -/
def ppGet (pp : ℕ → ℕ) (p : ℕ) : ℕ := if ppMem p then pp p else 0

/-- The spec's constraints on the table: positive and strictly
decreasing on places 1..8. -/
def ValidTable (pp : ℕ → ℕ) : Prop :=
  (∀ p, 1 ≤ p → p ≤ 8 → 0 < pp p) ∧
  (∀ p q, 1 ≤ p → p < q → q ≤ 8 → pp q < pp p)

/-- The standard collegiate 8-place table, used to instantiate witnesses
and counterexamples (consistent with the spec's constraints and with the
`PLACE_POINTS.get(1, 10)` fallback visible in `compute_leverage_index`). -/
def ppStd (p : ℕ) : ℕ := [0, 10, 8, 6, 5, 4, 3, 2, 1].getD p 0

/-! ## Seed ordering helpers (`scoring.py` lines 29-52) -/

/-- The field-event keywords of `_seed_sort_key`. -/
def field_keywords : List String :=
  [ "jump", "vault", "throw", "shot", "weight", "discus", "javelin", "hammer" ]

/-- Python `needle in hay` substring test. -/
def containsSub (hay needle : String) : Bool := decide (needle.data <:+: hay.data)

/-- `scoring._seed_sort_key`: rational sorting key for one entry.
Unparseable marks get the sentinel `1e9`; events whose lowered base name
contains a field keyword get the parsed value negated. -/
def _seed_sort_key (entry : EventEntry) (event : MeetEvent) : ℚ :=
  let mark := entry.effective_seed.getD ""
  match _mark_to_seconds mark with
  | none => 1000000000
  | some val =>
    let name := pyLower event.base_event_name
    if field_keywords.any (fun k => containsSub name k) then -val else val

/-- `scoring._rank_entries_by_seed`: named entries, stably sorted by key. -/
def _rank_entries_by_seed (event : MeetEvent) : List EventEntry :=
  (event.entries.filter (fun e => e.athlete.name != "")).mergeSort
    (fun a b => decide (_seed_sort_key a event ≤ _seed_sort_key b event))

/-! ## Python dicts

A Python `dict` is modelled as an insertion-ordered association list:
lookup returns the first (unique) binding, assignment updates an
existing binding in place or appends a new one. -/

/-- Insertion-ordered string-keyed map. -/
abbrev Dict (α : Type) := List (String × α)

/-- `d.get(k)` / `k in d`. -/
def dFind? {α : Type} (d : Dict α) (k : String) : Option α :=
  match d with
  | [] => none
  | (k2, v) :: t => if k2 = k then some v else dFind? t k

/-- `d.get(k, v0)`. -/
def dGetD {α : Type} (d : Dict α) (k : String) (v0 : α) : α := (dFind? d k).getD v0

/-- `d[k] = v`. -/
def dSet {α : Type} (d : Dict α) (k : String) (v : α) : Dict α :=
  match d with
  | [] => [(k, v)]
  | (k2, v2) :: t => if k2 = k then (k, v) :: t else (k2, v2) :: dSet t k v

/-- `list(d.keys())`. -/
def dKeys {α : Type} (d : Dict α) : List String := d.map Prod.fst

/-- `list(d.values())`. -/
def dValues {α : Type} (d : Dict α) : List α := d.map Prod.snd

/-- First-occurrence deduplication; stands in for iterating a Python
`set` (whose iteration order is arbitrary — no property proved here
depends on the order chosen). -/
def dedupFirst : List String → List String
  | [] => []
  | a :: t => a :: dedupFirst (t.filter (fun x => x != a))
termination_by l => l.length
decreasing_by
  simp only [List.length_cons]
  exact Nat.lt_succ_of_le (List.length_filter_le _ _)

/-- Code-point comparison of strings (Python's `<` on `str`). -/
def charListLt : List Char → List Char → Bool
  | [], [] => false
  | [], _ :: _ => true
  | _ :: _, [] => false
  | a :: as, b :: bs =>
    if a.toNat < b.toNat then true
    else if b.toNat < a.toNat then false
    else charListLt as bs

/-- `a <= b` on Python strings (total order, code-point lexicographic). -/
def strLe (a b : String) : Bool := !charListLt b.data a.data

/-- Python `sorted(...)` on a list of strings. -/
def sortStrings (l : List String) : List String := l.mergeSort strLe

/-- `actual.get(team, TeamScore(team=team, gender=gender)).actual_points`:
the team's recorded actual points, zero when the team is absent. -/
def actualPts (actual : Dict TeamScore) (team : String) : ℕ :=
  ((dFind? actual team).map TeamScore.actual_points).getD 0

/-! ## 1. Current actual score (`compute_actual_scores`, scoring.py 59-89) -/

/-- The lazily zero-initialised record of `_get_or_create`. -/
def _get_or_create (scores : Dict TeamScore) (team : String) (gender : Gender) : Dict TeamScore :=
  match dFind? scores team with
  | some _ => scores
  | none => scores ++ [(team, { team := team, gender := gender })]

/-- `ts.actual_points += pts; ts.events_scored.append(label)`. -/
def creditTeam (scores : Dict TeamScore) (team : String) (gender : Gender)
    (pts : ℕ) (label : String) : Dict TeamScore :=
  match dFind? (_get_or_create scores team gender) team with
  | some ts => dSet (_get_or_create scores team gender) team
      { ts with actual_points := ts.actual_points + pts,
                events_scored := ts.events_scored ++ [label] }
  | none => _get_or_create scores team gender

/-- Processing of one result line: credit only when the final place is
set, truthy and inside the scoring table's domain. -/
def scoreEntry (pp : ℕ → ℕ) (gender : Gender) (event_name : String)
    (scores : Dict TeamScore) (a : Athlete) : Dict TeamScore :=
  match a.final_place with
  | some p =>
    if p ≠ 0 ∧ ppMem p then
      creditTeam scores a.team gender (pp p)
        (event_name ++ " (" ++ toString p ++ ")")
    else scores
  | none => scores

/-- `scoring.compute_actual_scores`: tally points from completed finals
and complete combined events. -/
def compute_actual_scores (pp : ℕ → ℕ) (state : MeetState) (gender : Gender) :
    Dict TeamScore :=
  let s1 := (get_completed_finals state gender).foldl
    (fun sc event => event.entries.foldl
      (fun sc2 e => scoreEntry pp gender event.event_name sc2 e.athlete) sc) []
  (state.combined_events.filter
      (fun c => decide (c.gender = gender) && c.is_complete)).foldl
    (fun sc comb => comb.athletes.foldl
      (fun sc2 a => scoreEntry pp gender comb.event_name sc2 a) sc) s1

/-! ## 2. Optimistic ceiling (`compute_optimistic_ceiling`, scoring.py 96-141) -/

/-- The teams seen on any entry of any event of the snapshot (both
genders, prelims included); empty team names are skipped by the
truthiness test `if entry.athlete.team`. -/
def allTeamsOf (state : MeetState) : List String :=
  dedupFirst (state.events.foldl
    (fun acc ev => acc ++ ev.entries.filterMap
      (fun e => if e.athlete.team = "" then none else some e.athlete.team)) [])

/-- `team_athletes`: entrant count per team of one event
(`defaultdict(int)`, insertion-ordered, empty team names included). -/
def teamAthletes (event : MeetEvent) : Dict ℕ :=
  event.entries.foldl
    (fun d e => dSet d e.athlete.team (dGetD d e.athlete.team 0 + 1)) []

/-- The inner `for _ in range(count)` loop of the ceiling estimator:
returns the points gained, the updated shared place counter and whether
the running total was touched at all (i.e. whether the `defaultdict`
entry got created). -/
def ceilInner (pp : ℕ → ℕ) : ℕ → ℕ → ℕ × ℕ × Bool
  | 0, place => (0, place, false)
  | c + 1, place =>
    if ppMem place then
      let p2 := place + 1
      if p2 > 8 then (pp place, p2, true)
      else
        let r := ceilInner pp c p2
        (pp place + r.1, r.2.1, true)
    else if place > 8 then (0, place, false)
    else
      let r := ceilInner pp c place
      (r.1, r.2.1, r.2.2)

/-- The outer loop over `team_list` with the shared place counter and
the `if place > 8: break` after each team. -/
def ceilTeams (pp : ℕ → ℕ) (counts : Dict ℕ) :
    List String → ℕ → Dict ℕ → Dict ℕ
  | [], _, ceilings => ceilings
  | team :: rest, place, ceilings =>
    let r := ceilInner pp (dGetD counts team 0) place
    let c2 := if r.2.2 then dSet ceilings team (dGetD ceilings team 0 + r.1)
              else ceilings
    if r.2.1 > 8 then c2 else ceilTeams pp counts rest r.2.1 c2

/-- `scoring.compute_optimistic_ceiling`. -/
def compute_optimistic_ceiling (pp : ℕ → ℕ) (actual : Dict TeamScore)
    (state : MeetState) (gender : Gender) : Dict ℕ :=
  let c0 : Dict ℕ := (allTeamsOf state).map (fun team => (team, actualPts actual team))
  (get_upcoming_finals state gender).foldl
    (fun ceilings event =>
      let ta := teamAthletes event
      ceilTeams pp ta (sortStrings (dKeys ta)) 1 ceilings) c0

/-! ## 3. Seed-based projection (`compute_seed_projection`, scoring.py 148-187) -/

/-- The tied-block walk of `compute_seed_projection`: group consecutive
ranked entries whose key is within `0.001` of the block head's key,
award each member the average of the in-range table values of the
places the block starts at (range truncated at place 8), advance the
place counter by the block size. -/
def projBlocks (pp : ℕ → ℕ) (event : MeetEvent) :
    List EventEntry → ℕ → Dict ℚ → Dict ℚ
  | [], _, proj => proj
  | e :: rest, place, proj =>
    if place > 8 then proj
    else
      let ck := _seed_sort_key e event
      let inBlock : EventEntry → Bool :=
        fun x => decide (|_seed_sort_key x event - ck| < 1/1000)
      let block := e :: rest.takeWhile inBlock
      let rest2 := rest.dropWhile inBlock
      let cnt := block.length
      let tied_places := List.range' place (min (place + cnt) 9 - place)
      let avg : ℚ :=
        if tied_places ≠ [] then
          ((tied_places.map (fun p => (ppGet pp p : ℚ))).sum) / (tied_places.length : ℚ)
        else 0
      let proj2 :=
        if tied_places.any (fun p => decide (0 < ppGet pp p)) then
          block.foldl (fun d x =>
            dSet d x.athlete.team (dGetD d x.athlete.team 0 + avg)) proj
        else proj
      projBlocks pp event rest2 (place + cnt) proj2
termination_by ranked => ranked.length
decreasing_by
  simp only [List.length_cons]
  exact Nat.lt_succ_of_le ((List.dropWhile_sublist _).length_le)

/-- `scoring.compute_seed_projection`. -/
def compute_seed_projection (pp : ℕ → ℕ) (actual : Dict TeamScore)
    (state : MeetState) (gender : Gender) : Dict ℚ :=
  let proj0 : Dict ℚ := actual.map (fun p => (p.1, (p.2.actual_points : ℚ)))
  (get_upcoming_finals state gender).foldl
    (fun proj event => projBlocks pp event (_rank_entries_by_seed event) 1 proj) proj0

/-! ## 4. Leverage index (`compute_leverage_index`, scoring.py 194-254) -/

/-- One row of the leverage report. -/
structure LeverageEntry where
  event_name : String
  leverage_score : ℤ
  max_swing : ℤ
  total_pts_available : ℕ
  n_teams : ℕ
  top_teams_in_event : List String
  headline : String
deriving DecidableEq, Repr

/-- `scoring._leverage_headline`. -/
def _leverage_headline (event_name : String) (top_teams : List String)
    (total_pts : ℕ) (max_swing : ℤ) : String :=
  let teams_str := if top_teams.isEmpty then "multiple teams"
                   else String.intercalate " & " (top_teams.take 2)
  event_name ++ ": " ++ toString total_pts ++ " pts available — " ++
  teams_str ++ " both have athletes entered. Max swing: " ++
  toString max_swing ++ " pts between contenders."

/-- `scoring.compute_leverage_index`. -/
def compute_leverage_index (pp : ℕ → ℕ) (state : MeetState) (gender : Gender)
    (actual : Dict TeamScore) : List LeverageEntry :=
  let sorted_teams := actual.mergeSort
    (fun a b => decide (b.2.actual_points ≤ a.2.actual_points))
  let top_teams := (sorted_teams.take 5).map Prod.fst
  let results := (get_upcoming_finals state gender).foldl (fun acc event =>
    if event.entries.isEmpty then acc
    else
      let teams_in_event := dedupFirst (event.entries.map (fun e => e.athlete.team))
      let n_teams := teams_in_event.length
      let nEntries := event.entries.length
      let max_swing : ℤ :=
        (if ppMem 1 then (pp 1 : ℤ) else 10) - (ppGet pp (min 8 nEntries) : ℤ)
      let top_in := top_teams.filter (fun t => teams_in_event.contains t)
      let contention : ℤ := (top_in.length : ℤ) * max_swing
      let athletes_scoring := min 8 nEntries
      let total_pts := ((List.range' 1 athletes_scoring).map (ppGet pp)).sum
      acc ++ [{ event_name := event.event_name
                leverage_score := contention
                max_swing := max_swing
                total_pts_available := total_pts
                n_teams := n_teams
                top_teams_in_event := top_in
                headline := _leverage_headline event.event_name top_in total_pts max_swing }]) []
  results.mergeSort (fun a b => decide (b.leverage_score ≤ a.leverage_score))

/-! ## 5. Monte Carlo win probability (`compute_win_probability`, scoring.py 273-384)

Divisions are performed through `divQ?`; a `none` result anywhere in the
pipeline models a `ZeroDivisionError` (or, for `popIdx`, an
`IndexError`) propagating out of the Python function. -/

/-- Division with an explicit zero-divisor fault. -/
def divQ? (a b : ℚ) : Option ℚ := if b = 0 then none else some (a / b)

/-- `scoring._get_top_seed_win_prob` (computed but, by the fixed `0.65`
decay, never numerically used downstream). -/
def _get_top_seed_win_prob (event : MeetEvent) : ℚ :=
  let name := pyLower event.base_event_name
  if containsSub name "60m" && !containsSub name "hurdle" then 42/100
  else if containsSub name "200m" then 40/100
  else if containsSub name "400m" then 38/100
  else if containsSub name "hurdle" then 45/100
  else if containsSub name "800m" then 30/100
  else if containsSub name "mile" || containsSub name "1000m" then 30/100
  else if containsSub name "3000m" || containsSub name "5000m" then 35/100
  else if containsSub name "relay" then 40/100
  else 40/100

/-- `scoring._seed_rank_to_strength`: `1.0` for fields of at most one
athlete, otherwise `0.65 ** (rank - 1)`. -/
def _seed_rank_to_strength (rank n_athletes : ℕ) (top_seed_prob : ℚ) : ℚ :=
  if n_athletes ≤ 1 then 1 else (13/20 : ℚ) ^ (rank - 1)

/-- Precomputation for one upcoming event: ranked entries and their
normalised Plackett-Luce probabilities (`probs = [s / total for s in
strengths]`). -/
def eventProbs (event : MeetEvent) : Option (List EventEntry × List ℚ) := do
  let ranked := _rank_entries_by_seed event
  let n := ranked.length
  let top_prob := _get_top_seed_win_prob event
  let strengths := (List.range n).map (fun i => _seed_rank_to_strength (i + 1) n top_prob)
  let total := strengths.sum
  let probs ← strengths.mapM (fun s => divQ? s total)
  pure (ranked, probs)

/-- The cumulative-probability walk of one sampling step: index of the
first entry whose running total reaches `r`, `none` when the loop falls
through (in which case Python leaves `chosen_idx = 0`). -/
def pickAux (r : ℚ) (acc : ℚ) : List ℚ → Option ℕ
  | [] => none
  | p :: rest =>
    if r ≤ acc + p then some 0 else (pickAux r (acc + p) rest).map (fun i => i + 1)

/-- `remaining_entries.pop(chosen_idx)`, `none` modelling `IndexError`. -/
def popIdx {α : Type} (l : List α) (i : ℕ) : Option (α × List α) :=
  (l[i]?).map (fun a => (a, l.eraseIdx i))

/-- The per-event sampling loop of one trial: places 1,2,… are assigned
by normalised-probability selection until the entrants are exhausted or
place 8 is passed; `k` indexes the next random draw. -/
def simEvent (pp : ℕ → ℕ) (rng : ℕ → ℚ) :
    List (EventEntry × ℚ) → ℕ → Dict ℚ → ℕ → Option (Dict ℚ × ℕ)
  | [], _, scores, k => some (scores, k)
  | e0 :: rest, place, scores, k =>
    if place > 8 then some (scores, k)
    else
      let total := ((e0 :: rest).map Prod.snd).sum
      if total ≤ 0 then some (scores, k)
      else
        let r := rng k * total
        let chosen := (pickAux r 0 ((e0 :: rest).map Prod.snd)).getD 0
        match hm : popIdx (e0 :: rest) chosen with
        | none => none
        | some (w, re2) =>
          let pts := ppGet pp place
          let scores2 :=
            if 0 < pts then
              dSet scores w.1.athlete.team (dGetD scores w.1.athlete.team 0 + (pts : ℚ))
            else scores
          simEvent pp rng re2 (place + 1) scores2 (k + 1)
termination_by re => re.length
decreasing_by
  simp only [popIdx, Option.map_eq_some'] at hm
  obtain ⟨a, ha, hpair⟩ := hm
  have hlt : chosen < (e0 :: rest).length := by
    by_contra hc
    rw [List.getElem?_eq_none (by omega)] at ha
    exact Option.noConfusion ha
  have he : re2.length = (e0 :: rest).length - 1 := by
    have h2 := congrArg Prod.snd hpair
    simp only at h2
    rw [← h2, List.length_eraseIdx, if_pos hlt]
  simp only [List.length_cons] at hlt he ⊢
  omega

/-- `sim_scores = {t: actual.get(t, TeamScore(...)).actual_points for t in all_teams}`. -/
def initSimScores (actual : Dict TeamScore) (all_teams : List String) : Dict ℚ :=
  all_teams.map (fun t => (t, (actualPts actual t : ℚ)))

/-- Fold of `simEvent` over the precomputed events of one trial. -/
def runEvents (pp : ℕ → ℕ) (rng : ℕ → ℚ) :
    List (MeetEvent × List EventEntry × List ℚ) → Dict ℚ → ℕ → Option (Dict ℚ × ℕ)
  | [], scores, k => some (scores, k)
  | ed :: rest, scores, k => do
    let r ← simEvent pp rng (ed.2.1.zip ed.2.2) 1 scores k
    runEvents pp rng rest r.1 r.2

/-- `max(sim_scores.values()) if sim_scores else 0`. -/
def maxValues (l : List ℚ) : ℚ :=
  match l with
  | [] => 0
  | v :: vs => vs.foldl max v

/-- `for t in leaders: win_counts[t] += 1.0 / len(leaders)` — the
division happens inside the loop body, hence only when a leader exists. -/
def addCredit (wc : Dict ℚ) (leaders : List String) : Option (Dict ℚ) :=
  leaders.foldlM (fun w t => do
    let c ← divQ? 1 (leaders.length : ℚ)
    pure (dSet w t (dGetD w t 0 + c))) wc

/-- The trial loop of `compute_win_probability`: each iteration rebuilds
the score table, simulates every event, and credits the trial's
leaders. -/
def runIters (pp : ℕ → ℕ) (rng : ℕ → ℚ) (actual : Dict TeamScore)
    (all_teams : List String) (eds : List (MeetEvent × List EventEntry × List ℚ)) :
    ℕ → ℕ → Dict ℚ → Option (Dict ℚ × ℕ)
  | 0, k, wc => some (wc, k)
  | n + 1, k, wc => do
    let r ← runEvents pp rng eds (initSimScores actual all_teams) k
    let mx := maxValues (dValues r.1)
    let leaders := (r.1.filter (fun p => decide (p.2 = mx))).map Prod.fst
    let wc2 ← addCredit wc leaders
    runIters pp rng actual all_teams eds n r.2 wc2

/-- The upcoming finals the simulator actually runs
(`[e for e in state.get_upcoming_finals(gender) if e.entries]`). -/
def wpUpcoming (state : MeetState) (gender : Gender) : List MeetEvent :=
  (get_upcoming_finals state gender).filter (fun e => !e.entries.isEmpty)

/-- `event_data`: ranked entries and probabilities per upcoming event. -/
def wpEventData (upcoming : List MeetEvent) :
    Option (List (MeetEvent × List EventEntry × List ℚ)) :=
  upcoming.mapM (fun ev => (eventProbs ev).map (fun rp => (ev, rp.1, rp.2)))

/-- `all_teams = set(actual) ∪ teams of every ranked entry` (modelled in
first-occurrence order; no property proved here depends on the set's
iteration order). -/
def wpAllTeams (actual : Dict TeamScore)
    (eds : List (MeetEvent × List EventEntry × List ℚ)) : List String :=
  dedupFirst (dKeys actual ++
    eds.foldl (fun acc ed => acc ++ ed.2.1.map (fun e => e.athlete.team)) [])

/-- The degenerate early return of `compute_win_probability` when no
upcoming final has entrants: split probability 1 over the teams tied at
the maximum actual score, `0` for the rest, `{}` without teams.  The
winner count is positive whenever `actual` is nonempty, so the division
is exact here. -/
def degenerateWinProb (actual : Dict TeamScore) : Option (Dict ℚ) :=
  match actual with
  | [] => some []
  | (_, ts0) :: rest =>
    let max_pts := (rest.map (fun p => p.2.actual_points)).foldl max ts0.actual_points
    let winners := (actual.filter (fun p => decide (p.2.actual_points = max_pts))).map Prod.fst
    actual.mapM (fun p => do
      let v ← if winners.contains p.1 then divQ? 1 (winners.length : ℚ) else pure 0
      pure (p.1, v))

/-- `scoring.compute_win_probability` over an injected draw stream. -/
def compute_win_probability (pp : ℕ → ℕ) (actual : Dict TeamScore)
    (state : MeetState) (gender : Gender) (n_iterations : ℕ) (rng : ℕ → ℚ) :
    Option (Dict ℚ) :=
  match wpUpcoming state gender with
  | [] => degenerateWinProb actual
  | u :: us => do
    let eds ← wpEventData (u :: us)
    let all_teams := wpAllTeams actual eds
    let r ← runIters pp rng actual all_teams eds n_iterations 0 []
    let wc := r.1
    let total := (dValues wc).sum
    (all_teams.filter (fun t => decide (0 < dGetD wc t 0))).mapM (fun t => do
      let v ← divQ? (dGetD wc t 0) total
      pure (t, v))

/-! ## 6. Scenario builder (`compute_team_scenarios`, scoring.py 391-464)

Python's `id(entry)` is modelled by the entry's position in
`event.entries`: the ranking is carried out on `enum`-indexed entries
and `rank_map` keys on the index. -/

/-- One line of the per-event athlete breakdown. -/
structure EntryDetail where
  athlete : String
  seed_mark : String
  proj_place : ℕ
  seed_pts : ℕ
deriving DecidableEq, Repr

/-- One event row of the scenario breakdown. -/
structure EventBreakdown where
  event : String
  athletes : List EntryDetail
  scenario_a_pts : ℕ
  scenario_b_pts : ℕ
  scenario_c_pts : ℕ
deriving DecidableEq, Repr

/-- The scenario result record. -/
structure ScenarioResult where
  team : String
  current : ℕ
  scenario_a : ℕ
  scenario_b : ℕ
  scenario_c : ℕ
  breakdown : List EventBreakdown
deriving DecidableEq, Repr

/-- `_rank_entries_by_seed` on `enum`-indexed entries (same stable sort,
same keys, with each entry's original position carried along to model
`id(...)`). -/
def rankedIdx (event : MeetEvent) : List (ℕ × EventEntry) :=
  ((event.entries.enum).filter (fun p => p.2.athlete.name != "")).mergeSort
    (fun a b => decide (_seed_sort_key a.2 event ≤ _seed_sort_key b.2 event))

/-- `rank_map.get(id(entry), 9)` for the entry at position `idx`. -/
def rankMapGet (event : MeetEvent) (idx : ℕ) : ℕ :=
  match (rankedIdx event).findIdx? (fun p => p.1 == idx) with
  | some i => i + 1
  | none => 9

/-- `entry.effective_seed or "N/A"`. -/
def seedMarkOrNA (eff : Option String) : String :=
  match eff with
  | some s => if s = "" then "N/A" else s
  | none => "N/A"

/-- `team_entries = [e for e in event.entries if e.athlete.team == team]`
(on `enum`-indexed entries). -/
def scenarioTeamEntries (team : String) (event : MeetEvent) : List (ℕ × EventEntry) :=
  (event.entries.enum).filter (fun p => p.2.athlete.team == team)

/-- `occupied = set(rank_map.get(id(e), 9) for e in ranked if e.athlete.team != team)`. -/
def scenarioOccupied (team : String) (event : MeetEvent) : List ℕ :=
  ((rankedIdx event).filter (fun p => p.2.athlete.team != team)).map
    (fun p => rankMapGet event p.1)

/-- `available_places = sorted(p for p in range(1, 9) if p not in occupied)`. -/
def scenarioAvailable (team : String) (event : MeetEvent) : List ℕ :=
  (List.range' 1 8).filter (fun p => !(scenarioOccupied team event).contains p)

/-- Scenario A (seeds hold) points of one event. -/
def scenarioApts (pp : ℕ → ℕ) (team : String) (event : MeetEvent) : ℕ :=
  ((scenarioTeamEntries team event).map (fun p => ppGet pp (rankMapGet event p.1))).sum

/-- Scenario B (best case) points of one event: the `i`-th team entry
takes `available_places[i]` when it exists. -/
def scenarioBpts (pp : ℕ → ℕ) (team : String) (event : MeetEvent) : ℕ :=
  ((scenarioTeamEntries team event).enum.map
    (fun q => (((scenarioAvailable team event)[q.1]?).map (ppGet pp)).getD 0)).sum

/-- One step of the per-event loop of `compute_team_scenarios`. -/
def scenarioStep (pp : ℕ → ℕ) (team : String)
    (acc : ℕ × ℕ × ℕ × List EventBreakdown) (event : MeetEvent) :
    ℕ × ℕ × ℕ × List EventBreakdown :=
  if (scenarioTeamEntries team event).isEmpty then acc
  else
    let details := (scenarioTeamEntries team event).map (fun p =>
      let proj_place := rankMapGet event p.1
      { athlete := p.2.athlete.name
        seed_mark := seedMarkOrNA p.2.effective_seed
        proj_place := proj_place
        seed_pts := ppGet pp proj_place : EntryDetail })
    let a_pts := scenarioApts pp team event
    let b_pts := scenarioBpts pp team event
    let c_pts := 0
    (acc.1 + a_pts, acc.2.1 + b_pts, acc.2.2.1 + c_pts,
      acc.2.2.2 ++ [{ event := event.event_name, athletes := details,
                      scenario_a_pts := a_pts, scenario_b_pts := b_pts,
                      scenario_c_pts := c_pts }])

/-- `scoring.compute_team_scenarios`. -/
def compute_team_scenarios (pp : ℕ → ℕ) (team : String) (actual : Dict TeamScore)
    (state : MeetState) (gender : Gender) : ScenarioResult :=
  let base_pts := actualPts actual team
  let r := (get_upcoming_finals state gender).foldl (scenarioStep pp team)
    (base_pts, base_pts, base_pts, [])
  { team := team, current := base_pts, scenario_a := r.1, scenario_b := r.2.1,
    scenario_c := r.2.2.1, breakdown := r.2.2.2 }

/-! ## Orchestrator (`run_all_analysis`, scoring.py 471-499) -/

/-- Python `int(...)` on a rational: truncation toward zero. -/
def pyInt (q : ℚ) : ℤ := if 0 ≤ q then ⌊q⌋ else -⌊-q⌋

/-- Round half to even, as Python's `round` (modelled over exact
rationals; the binary-representation artefacts of `float` rounding are
abstracted away). -/
def roundHalfEven (q : ℚ) : ℤ :=
  let f := ⌊q⌋
  let r := q - (f : ℚ)
  if r < 1/2 then f
  else if 1/2 < r then f + 1
  else if Even f then f else f + 1

/-- Python `round(x, 1)`. -/
def pyRound1 (q : ℚ) : ℚ := (roundHalfEven (q * 10) : ℚ) / 10

/-- The per-gender report assembled by the orchestrator. -/
structure AnalysisReport where
  gender : Gender
  team_scores : List TeamScore
  leverage_index : List LeverageEntry
  actual : Dict TeamScore
  state : MeetState
deriving DecidableEq, Repr

/-- `scoring.run_all_analysis`: run every layer and merge (the missing
`MONTE_CARLO_ITERATIONS` of `config.py` is the explicit `n_iterations`
argument, per the spec's "configured iteration count"). -/
def run_all_analysis (pp : ℕ → ℕ) (n_iterations : ℕ) (rng : ℕ → ℚ)
    (state : MeetState) (gender : Gender) : Option AnalysisReport := do
  let actual := compute_actual_scores pp state gender
  let ceilings := compute_optimistic_ceiling pp actual state gender
  let projections := compute_seed_projection pp actual state gender
  let leverage := compute_leverage_index pp state gender actual
  let win_probs ← compute_win_probability pp actual state gender n_iterations rng
  let all_teams := sortStrings (dedupFirst (dKeys actual ++ dKeys ceilings ++ dKeys projections))
  let team_scores := all_teams.map (fun team =>
    let ts := (dFind? actual team).getD { team := team, gender := gender }
    { ts with optimistic_ceiling := dGetD ceilings team ts.actual_points
              seed_projection := pyInt (dGetD projections team (ts.actual_points : ℚ))
              win_probability := pyRound1 (dGetD win_probs team 0 * 100) })
  let sorted_ts := team_scores.mergeSort
    (fun a b => decide (b.seed_projection ≤ a.seed_projection))
  pure { gender := gender, team_scores := sorted_ts,
         leverage_index := leverage.take 8, actual := actual, state := state }

/-! ## Spec-side reformulations used to state the claims -/

/-- The scoring rule as C8 words it: `PLACE_POINTS[p]` exactly when the
final place is set and lies in the table's domain 1..8, else 0. -/
def scoresPlace (pp : ℕ → ℕ) : Option ℕ → ℕ
  | some p => if 1 ≤ p ∧ p ≤ 8 then pp p else 0
  | none => 0

/-- The total C8 claims `compute_actual_scores` credits to one team:
the per-athlete `scoresPlace` summed over completed finals and complete
combined events of the gender. -/
def claimedActualPoints (pp : ℕ → ℕ) (state : MeetState) (gender : Gender)
    (team : String) : ℕ :=
  ((get_completed_finals state gender).map (fun ev =>
    ((ev.entries.filter (fun e => e.athlete.team == team)).map
      (fun e => scoresPlace pp e.athlete.final_place)).sum)).sum +
  ((state.combined_events.filter
      (fun c => decide (c.gender = gender) && c.is_complete)).map (fun c =>
    ((c.athletes.filter (fun a => a.team == team)).map
      (fun a => scoresPlace pp a.final_place)).sum)).sum

/-- Maximum actual score over a (possibly empty) score dict. -/
def maxActualPts (actual : Dict TeamScore) : ℕ :=
  (actual.map (fun p => p.2.actual_points)).foldl max 0

/-- The degenerate distribution C6 describes: probability `1/k` for each
of the `k` teams tied at the maximum actual points, `0.0` for every
other team of the actual-scores map. -/
def degenerateDistributionSpec (actual : Dict TeamScore) : Dict ℚ :=
  let winners := (actual.filter
    (fun p => decide (p.2.actual_points = maxActualPts actual))).map Prod.fst
  actual.map (fun p =>
    (p.1, if winners.contains p.1 then (1 : ℚ) / (winners.length : ℚ) else 0))

/-! ## Concrete snapshots used by counterexamples and witnesses -/

/-- Entry-building helper for the concrete snapshots. -/
def mkEntry (nm tm sd : String) : EventEntry :=
  { athlete := { name := nm, team := tm }, effective_seed := some sd }

/-- A men's 60m final, not yet run: team B's entrant is seeded faster
than team A's. -/
def evAB : MeetEvent :=
  { event_name := "Men 60m Dash", base_event_name := "60m Dash", gender := .men,
    round_type := .final, status := .scheduled,
    entries := [ mkEntry "Bob" "B" "10.50", mkEntry "Al" "A" "11.00" ] }

/-- Snapshot with `evAB` as its only event. -/
def stAB : MeetState := { events := [evAB] }

/-- A men's 60m final of nine named entrants: seven distinct marks on
team O followed by two entrants of teams T and U tied at 7.10 — the tied
block starts at place 8 and straddles the scoring cut-off. -/
def evNine : MeetEvent :=
  { event_name := "Men 60m Dash", base_event_name := "60m Dash", gender := .men,
    round_type := .final, status := .scheduled,
    entries := [ mkEntry "a1" "O" "7.01", mkEntry "a2" "O" "7.02",
                 mkEntry "a3" "O" "7.03", mkEntry "a4" "O" "7.04",
                 mkEntry "a5" "O" "7.05", mkEntry "a6" "O" "7.06",
                 mkEntry "a7" "O" "7.07", mkEntry "t1" "T" "7.10",
                 mkEntry "t2" "U" "7.10" ] }

/-- Snapshot with `evNine` as its only event. -/
def stNine : MeetState := { events := [evNine] }

/-- A men's long-jump final with two feet-inch marks: 13-04.50 beats
12-00. -/
def evJump : MeetEvent :=
  { event_name := "Men Long Jump", base_event_name := "Long Jump", gender := .men,
    round_type := .final, status := .scheduled,
    entries := [ mkEntry "Lou" "L" "13-04.50", mkEntry "Sam" "S" "12-00" ] }

/-- A men's 60m final of four named entrants with a tie at places 3-4
across teams T and U (each side of the tie projects to 5.5 points). -/
def evTie34 : MeetEvent :=
  { event_name := "Men 60m Dash", base_event_name := "60m Dash", gender := .men,
    round_type := .final, status := .scheduled,
    entries := [ mkEntry "a1" "O" "7.00", mkEntry "a2" "O" "7.05",
                 mkEntry "t1" "T" "7.10", mkEntry "t2" "U" "7.10" ] }

/-- Snapshot with `evTie34` as its only event. -/
def stTie34 : MeetState := { events := [evTie34] }

/-- An upcoming final whose single entry has no athlete name (a
placeholder slot). -/
def evUnnamed : MeetEvent :=
  { event_name := "Men Pole Vault", base_event_name := "Pole Vault", gender := .men,
    round_type := .final, status := .scheduled,
    entries := [ { athlete := { name := "", team := "" }, effective_seed := none } ] }

/-- Snapshot with `evUnnamed` as its only event. -/
def stUnnamed : MeetState := { events := [evUnnamed] }

/-- A completed men's 60m final with places 1, 2 and 9: per the spec's
tabulator test vector, place 9 must credit nothing. -/
def evDone : MeetEvent :=
  { event_name := "Men 60m Dash", base_event_name := "60m Dash", gender := .men,
    round_type := .final, status := .final,
    entries := [ { athlete := { name := "w1", team := "A", final_place := some 1 } },
                 { athlete := { name := "w2", team := "B", final_place := some 2 } },
                 { athlete := { name := "w3", team := "C", final_place := some 9 } } ] }

/-- Snapshot with the completed `evDone` and one upcoming final. -/
def stDone : MeetState := { events := [evDone, evAB] }

/-- The empty snapshot. -/
def stEmpty : MeetState := { events := [] }

/-- An upcoming final with a single named entrant. -/
def evSolo : MeetEvent :=
  { event_name := "Men Shot Put", base_event_name := "Shot Put", gender := .men,
    round_type := .final, status := .scheduled,
    entries := [ mkEntry "Sol" "S" "16.45" ] }

/-- Snapshot with `evSolo` as its only event. -/
def stSolo : MeetState := { events := [evSolo] }

/-- A scoring table with exactly two scoring places. -/
def ppTwo (p : ℕ) : ℕ := [0, 4, 2].getD p 0

/-- A men's 60m final whose two entrants (teams T and U) carry seeds
within `1e-3` of one another. -/
def evTie12 : MeetEvent :=
  { event_name := "Men 60m Dash", base_event_name := "60m Dash", gender := .men,
    round_type := .final, status := .scheduled,
    entries := [ mkEntry "t1" "T" "7.10", mkEntry "t2" "U" "7.1005" ] }

/-- Snapshot with `evTie12` as its only event. -/
def stTie12 : MeetState := { events := [evTie12] }

/-- Three team records: X and Y tied at 4 points, Z behind. -/
def exActual3 : Dict TeamScore :=
  [ ( "X", { team := "X", gender := .men, actual_points := 4 }),
    ( "Y", { team := "Y", gender := .men, actual_points := 4 }),
    ( "Z", { team := "Z", gender := .men, actual_points := 1 }) ]

/-!
# Theorems

General lemmas about the dict model and the embedded functions first,
then one theorem per claim (with its witness or counterexample). -/

theorem ppStd_valid : ValidTable ppStd := by
  constructor
  · intro p h1 h8
    interval_cases p <;> decide
  · intro p q h1 hlt h8
    have hp8 : p ≤ 8 := by omega
    interval_cases p <;> interval_cases q <;> simp_all [ppStd]

theorem ppMem_iff (p : ℕ) : ppMem p = true ↔ 1 ≤ p ∧ p ≤ 8 := by
  simp [ppMem]

theorem dFind?_eq_none_of_not_mem {α : Type} (d : Dict α) (k : String)
    (h : k ∉ dKeys d) : dFind? d k = none := by
  induction d with
  | nil => rfl
  | cons hd t ih =>
    simp only [dKeys, List.map_cons, List.mem_cons, not_or] at h
    simp only [dFind?]
    rw [if_neg (Ne.symm h.1)]
    exact ih h.2

theorem dFind?_dSet_self {α : Type} (d : Dict α) (k : String) (v : α) :
    dFind? (dSet d k v) k = some v := by
  induction d with
  | nil => simp [dSet, dFind?]
  | cons hd t ih =>
    by_cases h : hd.1 = k
    · simp [dSet, dFind?, h]
    · simp only [dSet]
      rw [if_neg h]
      simp only [dFind?]
      rw [if_neg h]
      exact ih

theorem dFind?_dSet_ne {α : Type} (d : Dict α) {k k2 : String} (v : α)
    (h : k2 ≠ k) : dFind? (dSet d k v) k2 = dFind? d k2 := by
  induction d with
  | nil =>
    simp only [dSet, dFind?]
    rw [if_neg (Ne.symm h)]
  | cons hd t ih =>
    by_cases h2 : hd.1 = k
    · simp only [dSet]
      rw [if_pos h2]
      simp only [dFind?]
      rw [if_neg (Ne.symm h), if_neg (h2 ▸ (Ne.symm h))]
    · simp only [dSet]
      rw [if_neg h2]
      simp only [dFind?]
      by_cases h3 : hd.1 = k2
      · rw [if_pos h3, if_pos h3]
      · rw [if_neg h3, if_neg h3]
        exact ih

theorem dGetD_dSet_self {α : Type} (d : Dict α) (k : String) (v v0 : α) :
    dGetD (dSet d k v) k v0 = v := by
  simp [dGetD, dFind?_dSet_self]

theorem dGetD_dSet_ne {α : Type} (d : Dict α) {k k2 : String} (v v0 : α)
    (h : k2 ≠ k) : dGetD (dSet d k v) k2 v0 = dGetD d k2 v0 := by
  simp [dGetD, dFind?_dSet_ne d v h]

theorem dFind?_append {α : Type} (d e : Dict α) (k : String) :
    dFind? (d ++ e) k =
      match dFind? d k with
      | some v => some v
      | none => dFind? e k := by
  induction d with
  | nil => simp [dFind?]
  | cons hd t ih =>
    by_cases h : hd.1 = k
    · simp [dFind?, h]
    · simpa [dFind?, h] using ih

theorem mem_dKeys_dSet {α : Type} (d : Dict α) (k k2 : String) (v : α) :
    k2 ∈ dKeys (dSet d k v) ↔ k2 = k ∨ k2 ∈ dKeys d := by
  induction d with
  | nil => simp [dSet, dKeys]
  | cons hd t ih =>
    simp only [dSet]
    by_cases h : hd.1 = k
    · rw [if_pos h]
      subst h
      simp only [dKeys, List.map_cons, List.mem_cons]
      tauto
    · rw [if_neg h]
      simp only [dKeys, List.map_cons, List.mem_cons] at ih ⊢
      rw [ih]
      tauto

/-! ### Score tabulator lemmas (towards C8) -/

theorem goc_find_self (sc : Dict TeamScore) (t : String) (g : Gender) :
    ∃ ts, dFind? (_get_or_create sc t g) t = some ts ∧
      ts.actual_points = actualPts sc t := by
  unfold _get_or_create
  cases h : dFind? sc t with
  | some ts => exact ⟨ts, h, by simp [actualPts, h]⟩
  | none =>
    refine ⟨{ team := t, gender := g }, ?_, by simp [actualPts, h]⟩
    rw [dFind?_append]
    simp [h, dFind?]

theorem goc_find_ne (sc : Dict TeamScore) {t team : String} (g : Gender)
    (h : team ≠ t) : dFind? (_get_or_create sc t g) team = dFind? sc team := by
  unfold _get_or_create
  cases hf : dFind? sc t with
  | some ts => rfl
  | none =>
    rw [dFind?_append]
    cases h2 : dFind? sc team with
    | some v => rfl
    | none =>
      simp only [dFind?]
      rw [if_neg (Ne.symm h)]

theorem actualPts_creditTeam (sc : Dict TeamScore) (t team : String) (g : Gender)
    (pts : ℕ) (lbl : String) :
    actualPts (creditTeam sc t g pts lbl) team
      = actualPts sc team + (if t = team then pts else 0) := by
  obtain ⟨ts, hts, hpts⟩ := goc_find_self sc t g
  unfold creditTeam
  rw [hts]
  by_cases he : t = team
  · subst he
    simp only [actualPts, dFind?_dSet_self]
    simp [hpts, actualPts]
  · have hne : team ≠ t := fun h2 => he h2.symm
    simp only [actualPts, dFind?_dSet_ne _ _ hne, goc_find_ne sc g hne, if_neg he]
    omega

theorem actualPts_scoreEntry (pp : ℕ → ℕ) (g : Gender) (en : String)
    (sc : Dict TeamScore) (a : Athlete) (team : String) :
    actualPts (scoreEntry pp g en sc a) team
      = actualPts sc team + (if a.team = team then scoresPlace pp a.final_place else 0) := by
  unfold scoreEntry
  cases hp : a.final_place with
  | none => simp [scoresPlace]
  | some p =>
    dsimp only
    by_cases hc : p ≠ 0 ∧ ppMem p
    · rw [if_pos hc, actualPts_creditTeam]
      have h18 : 1 ≤ p ∧ p ≤ 8 := (ppMem_iff p).mp hc.2
      simp [scoresPlace, h18]
    · rw [if_neg hc]
      have h18 : ¬(1 ≤ p ∧ p ≤ 8) := by
        intro hh
        exact hc ⟨by omega, (ppMem_iff p).mpr hh⟩
      simp [scoresPlace, h18]

theorem actualPts_fold_athletes (pp : ℕ → ℕ) (g : Gender) (en : String)
    (as : List Athlete) (sc : Dict TeamScore) (team : String) :
    actualPts (as.foldl (fun sc2 a => scoreEntry pp g en sc2 a) sc) team
      = actualPts sc team +
        ((as.filter (fun a => a.team == team)).map
          (fun a => scoresPlace pp a.final_place)).sum := by
  induction as generalizing sc with
  | nil => simp
  | cons a t ih =>
    simp only [List.foldl_cons]
    rw [ih, actualPts_scoreEntry]
    by_cases h : a.team = team
    · simp [List.filter_cons, h]
      omega
    · simp [List.filter_cons, h]

theorem actualPts_fold_entries (pp : ℕ → ℕ) (g : Gender) (en : String)
    (entries : List EventEntry) (sc : Dict TeamScore) (team : String) :
    actualPts (entries.foldl (fun sc2 e => scoreEntry pp g en sc2 e.athlete) sc) team
      = actualPts sc team +
        ((entries.filter (fun e => e.athlete.team == team)).map
          (fun e => scoresPlace pp e.athlete.final_place)).sum := by
  induction entries generalizing sc with
  | nil => simp
  | cons e t ih =>
    simp only [List.foldl_cons]
    rw [ih, actualPts_scoreEntry]
    by_cases h : e.athlete.team = team
    · simp [List.filter_cons, h]
      omega
    · simp [List.filter_cons, h]

theorem actualPts_fold_events (pp : ℕ → ℕ) (g : Gender)
    (evs : List MeetEvent) (sc : Dict TeamScore) (team : String) :
    actualPts (evs.foldl (fun sc2 ev => ev.entries.foldl
        (fun sc3 e => scoreEntry pp g ev.event_name sc3 e.athlete) sc2) sc) team
      = actualPts sc team +
        ((evs.map (fun ev => ((ev.entries.filter (fun e => e.athlete.team == team)).map
          (fun e => scoresPlace pp e.athlete.final_place)).sum)).sum) := by
  induction evs generalizing sc with
  | nil => simp
  | cons ev t ih =>
    simp only [List.foldl_cons, List.map_cons, List.sum_cons]
    rw [ih, actualPts_fold_entries]
    omega

theorem actualPts_fold_combined (pp : ℕ → ℕ) (g : Gender)
    (cs : List CombinedEventResult) (sc : Dict TeamScore) (team : String) :
    actualPts (cs.foldl (fun sc2 c => c.athletes.foldl
        (fun sc3 a => scoreEntry pp g c.event_name sc3 a) sc2) sc) team
      = actualPts sc team +
        ((cs.map (fun c => ((c.athletes.filter (fun a => a.team == team)).map
          (fun a => scoresPlace pp a.final_place)).sum)).sum) := by
  induction cs generalizing sc with
  | nil => simp
  | cons c t ih =>
    simp only [List.foldl_cons, List.map_cons, List.sum_cons]
    rw [ih, actualPts_fold_athletes]
    omega

/-! ### dedupFirst and membership lemmas -/

theorem mem_dedupFirst_bounded :
    ∀ (n : ℕ) (l : List String), l.length ≤ n →
      ∀ a, (a ∈ dedupFirst l ↔ a ∈ l) := by
  intro n
  induction n with
  | zero =>
    intro l hl a
    match l, hl with
    | [], _ => simp [dedupFirst]
  | succ m ih =>
    intro l hl a
    match l with
    | [] => simp [dedupFirst]
    | b :: t =>
      rw [dedupFirst]
      have hlen : (t.filter (fun x => x != b)).length ≤ m := by
        have := List.length_filter_le (fun x => x != b) t
        simp only [List.length_cons] at hl
        omega
      simp only [List.mem_cons, ih _ hlen a, List.mem_filter, bne_iff_ne]
      by_cases hab : a = b
      · subst hab; tauto
      · tauto

theorem mem_dedupFirst (l : List String) (a : String) :
    a ∈ dedupFirst l ↔ a ∈ l :=
  mem_dedupFirst_bounded l.length l le_rfl a

theorem dedupFirst_nodup_bounded :
    ∀ (n : ℕ) (l : List String), l.length ≤ n → (dedupFirst l).Nodup := by
  intro n
  induction n with
  | zero =>
    intro l hl
    match l, hl with
    | [], _ => simp [dedupFirst]
  | succ m ih =>
    intro l hl
    match l with
    | [] => simp [dedupFirst]
    | b :: t =>
      rw [dedupFirst]
      have hlen : (t.filter (fun x => x != b)).length ≤ m := by
        have := List.length_filter_le (fun x => x != b) t
        simp only [List.length_cons] at hl
        omega
      refine List.nodup_cons.mpr ⟨?_, ih _ hlen⟩
      rw [mem_dedupFirst_bounded m _ hlen]
      simp [List.mem_filter]

theorem dedupFirst_nodup (l : List String) : (dedupFirst l).Nodup :=
  dedupFirst_nodup_bounded l.length l le_rfl

theorem mem_foldl_append {α β : Type} (f : α → List β) (l : List α)
    (init : List β) (x : β) :
    x ∈ l.foldl (fun acc e => acc ++ f e) init ↔ x ∈ init ∨ ∃ e ∈ l, x ∈ f e := by
  induction l generalizing init with
  | nil => simp
  | cons e t ih =>
    simp only [List.foldl_cons, ih, List.mem_append, List.mem_cons]
    constructor
    · rintro (⟨h | h⟩ | ⟨e2, he2, hx⟩)
      · exact Or.inl h
      · exact Or.inr ⟨e, Or.inl rfl, h⟩
      · exact Or.inr ⟨e2, Or.inr he2, hx⟩
    · rintro (h | ⟨e2, (rfl | he2), hx⟩)
      · exact Or.inl (Or.inl h)
      · exact Or.inl (Or.inr hx)
      · exact Or.inr ⟨e2, he2, hx⟩

theorem mem_allTeamsOf (state : MeetState) (team : String) :
    team ∈ allTeamsOf state ↔
      team ≠ "" ∧ ∃ ev ∈ state.events, ∃ en ∈ ev.entries, en.athlete.team = team := by
  unfold allTeamsOf
  rw [mem_dedupFirst, mem_foldl_append]
  simp only [List.not_mem_nil, false_or, List.mem_filterMap]
  constructor
  · rintro ⟨ev, hev, en, hen, hsome⟩
    by_cases h : en.athlete.team = ""
    · rw [if_pos h] at hsome; exact absurd hsome (by simp)
    · rw [if_neg h] at hsome
      obtain rfl : en.athlete.team = team := by simpa using hsome
      exact ⟨h, ev, hev, en, hen, rfl⟩
  · rintro ⟨hne, ev, hev, en, hen, rfl⟩
    exact ⟨ev, hev, en, hen, by rw [if_neg hne]⟩

/-! ### Value-map lemmas for the dict initialisations -/

theorem dFind?_map_value {α β : Type} (d : Dict α) (f : α → β) (k : String) :
    dFind? (d.map (fun p => (p.1, f p.2))) k = (dFind? d k).map f := by
  induction d with
  | nil => rfl
  | cons hd t ih =>
    by_cases h : hd.1 = k
    · simp [dFind?, h]
    · simp only [List.map_cons, dFind?]
      rw [if_neg h, if_neg h]
      exact ih

theorem dFind?_map_key {β : Type} (S : List String) (f : String → β) (k : String) :
    dFind? (S.map (fun s => (s, f s))) k = if k ∈ S then some (f k) else none := by
  induction S with
  | nil => rfl
  | cons a t ih =>
    by_cases h : a = k
    · subst h
      simp [dFind?]
    · simp only [List.map_cons, dFind?]
      rw [if_neg h, ih]
      simp [Ne.symm h]

/-! ### Seed projection monotonicity (towards C1) -/

theorem dGetD_le_dSet_add (d : Dict ℚ) (k t : String) (c : ℚ) (hc : 0 ≤ c) :
    dGetD d t 0 ≤ dGetD (dSet d k (dGetD d k 0 + c)) t 0 := by
  by_cases h : t = k
  · subst h
    rw [dGetD_dSet_self]
    linarith
  · rw [dGetD_dSet_ne _ _ _ h]

theorem dGetD_le_fold_add (block : List EventEntry) (c : ℚ) (hc : 0 ≤ c)
    (proj : Dict ℚ) (t : String) :
    dGetD proj t 0 ≤ dGetD (block.foldl (fun d x =>
      dSet d x.athlete.team (dGetD d x.athlete.team 0 + c)) proj) t 0 := by
  induction block generalizing proj with
  | nil => exact le_refl _
  | cons e r ih =>
    exact le_trans (dGetD_le_dSet_add proj e.athlete.team t c hc) (ih _)

theorem dGetD_le_projBlocks_bounded (pp : ℕ → ℕ) (event : MeetEvent) :
    ∀ (n : ℕ) (ranked : List EventEntry), ranked.length ≤ n →
      ∀ (place : ℕ) (proj : Dict ℚ) (t : String),
        dGetD proj t 0 ≤ dGetD (projBlocks pp event ranked place proj) t 0 := by
  intro n
  induction n with
  | zero =>
    intro ranked hl place proj t
    match ranked, hl with
    | [], _ => rw [projBlocks]
  | succ m ih =>
    intro ranked hl place proj t
    match ranked with
    | [] => rw [projBlocks]
    | e :: rest =>
      rw [projBlocks]
      by_cases hp : place > 8
      · rw [if_pos hp]
      · rw [if_neg hp]
        have hlen : (rest.dropWhile (fun x =>
            decide (|_seed_sort_key x event - _seed_sort_key e event| < 1/1000))).length ≤ m := by
          have := (@List.dropWhile_sublist _ rest (fun x =>
            decide (|_seed_sort_key x event - _seed_sort_key e event| < 1/1000))).length_le
          simp only [List.length_cons] at hl
          omega
        refine le_trans ?_ (ih _ hlen _ _ t)
        by_cases hany : (List.range' place (min (place + (e :: rest.takeWhile (fun x =>
            decide (|_seed_sort_key x event - _seed_sort_key e event| < 1/1000))).length) 9 - place)).any
            (fun p => decide (0 < ppGet pp p))
        · rw [if_pos hany]
          apply dGetD_le_fold_add
          by_cases hne : (List.range' place (min (place + (e :: rest.takeWhile (fun x =>
              decide (|_seed_sort_key x event - _seed_sort_key e event| < 1/1000))).length) 9 - place)) ≠ []
          · rw [if_pos hne]
            apply div_nonneg
            · apply List.sum_nonneg
              intro q hq
              simp only [List.mem_map] at hq
              obtain ⟨p2, _, rfl⟩ := hq
              exact Nat.cast_nonneg _
            · exact Nat.cast_nonneg _
          · rw [if_neg hne]
        · rw [if_neg hany]

theorem dGetD_le_projBlocks (pp : ℕ → ℕ) (event : MeetEvent)
    (ranked : List EventEntry) (place : ℕ) (proj : Dict ℚ) (t : String) :
    dGetD proj t 0 ≤ dGetD (projBlocks pp event ranked place proj) t 0 :=
  dGetD_le_projBlocks_bounded pp event ranked.length ranked le_rfl place proj t

theorem dGetD_le_proj_fold (pp : ℕ → ℕ) (evs : List MeetEvent)
    (proj : Dict ℚ) (t : String) :
    dGetD proj t 0 ≤ dGetD (evs.foldl (fun pr event =>
      projBlocks pp event (_rank_entries_by_seed event) 1 pr) proj) t 0 := by
  induction evs generalizing proj with
  | nil => exact le_refl _
  | cons ev rest ih =>
    exact le_trans (dGetD_le_projBlocks pp ev _ 1 proj t) (ih _)

theorem proj_init_eq (actual : Dict TeamScore) (team : String) :
    dGetD (actual.map (fun p => (p.1, (p.2.actual_points : ℚ)))) team 0
      = (actualPts actual team : ℚ) := by
  have h := dFind?_map_value actual (fun ts => (ts.actual_points : ℚ)) team
  simp only [dGetD, actualPts, h]
  cases dFind? actual team <;> simp

theorem seed_projection_ge_actual (pp : ℕ → ℕ) (actual : Dict TeamScore)
    (state : MeetState) (gender : Gender) (team : String) :
    (actualPts actual team : ℚ) ≤
      dGetD (compute_seed_projection pp actual state gender) team 0 := by
  unfold compute_seed_projection
  rw [← proj_init_eq actual team]
  exact dGetD_le_proj_fold pp _ _ team

/-! ### Ceiling estimator lemmas (towards C1 and C10) -/

theorem dGetD_nat_le_dSet_add (d : Dict ℕ) (k t : String) (c : ℕ) :
    dGetD d t 0 ≤ dGetD (dSet d k (dGetD d k 0 + c)) t 0 := by
  by_cases h : t = k
  · subst h
    rw [dGetD_dSet_self]
    omega
  · rw [dGetD_dSet_ne _ _ _ h]

theorem ceilTeams_le (pp : ℕ → ℕ) (counts : Dict ℕ) (teams : List String)
    (place : ℕ) (c : Dict ℕ) (t : String) :
    dGetD c t 0 ≤ dGetD (ceilTeams pp counts teams place c) t 0 := by
  induction teams generalizing place c with
  | nil => exact le_refl _
  | cons team rest ih =>
    rw [ceilTeams]
    set r := ceilInner pp (dGetD counts team 0) place with hr
    by_cases htch : r.2.2
    · rw [if_pos htch]
      by_cases hbr : r.2.1 > 8
      · rw [if_pos hbr]
        exact dGetD_nat_le_dSet_add c team t r.1
      · rw [if_neg hbr]
        exact le_trans (dGetD_nat_le_dSet_add c team t r.1) (ih _ _)
    · simp only [htch, if_neg, Bool.false_eq_true, if_false]
      by_cases hbr : r.2.1 > 8
      · rw [if_pos hbr]
      · rw [if_neg hbr]
        exact ih _ _

theorem ceilTeams_untouched (pp : ℕ → ℕ) (counts : Dict ℕ) (teams : List String)
    (place : ℕ) (c : Dict ℕ) (t : String) (h : t ∉ teams) :
    dGetD (ceilTeams pp counts teams place c) t 0 = dGetD c t 0 := by
  induction teams generalizing place c with
  | nil => rfl
  | cons team rest ih =>
    simp only [List.mem_cons, not_or] at h
    rw [ceilTeams]
    set r := ceilInner pp (dGetD counts team 0) place with hr
    by_cases htch : r.2.2
    · rw [if_pos htch]
      by_cases hbr : r.2.1 > 8
      · rw [if_pos hbr, dGetD_dSet_ne _ _ _ h.1]
      · rw [if_neg hbr, ih _ _ h.2, dGetD_dSet_ne _ _ _ h.1]
    · simp only [htch, Bool.false_eq_true, if_false]
      by_cases hbr : r.2.1 > 8
      · rw [if_pos hbr]
      · rw [if_neg hbr]
        exact ih _ _ h.2

theorem ceilTeams_mem_keys (pp : ℕ → ℕ) (counts : Dict ℕ) (teams : List String)
    (place : ℕ) (c : Dict ℕ) (t : String) (h : t ∈ dKeys c) :
    t ∈ dKeys (ceilTeams pp counts teams place c) := by
  induction teams generalizing place c with
  | nil => exact h
  | cons team rest ih =>
    rw [ceilTeams]
    set r := ceilInner pp (dGetD counts team 0) place with hr
    by_cases htch : r.2.2
    · rw [if_pos htch]
      by_cases hbr : r.2.1 > 8
      · rw [if_pos hbr]
        exact (mem_dKeys_dSet _ _ _ _).mpr (Or.inr h)
      · rw [if_neg hbr]
        exact ih _ _ ((mem_dKeys_dSet _ _ _ _).mpr (Or.inr h))
    · simp only [htch, Bool.false_eq_true, if_false]
      by_cases hbr : r.2.1 > 8
      · rw [if_pos hbr]
        exact h
      · rw [if_neg hbr]
        exact ih _ _ h

theorem ceil_fold_le (pp : ℕ → ℕ) (evs : List MeetEvent) (c : Dict ℕ) (t : String) :
    dGetD c t 0 ≤ dGetD (evs.foldl (fun ceilings event =>
      ceilTeams pp (teamAthletes event) (sortStrings (dKeys (teamAthletes event))) 1 ceilings) c) t 0 := by
  induction evs generalizing c with
  | nil => exact le_refl _
  | cons ev rest ih =>
    exact le_trans (ceilTeams_le pp _ _ 1 c t) (ih _)

theorem ceil_fold_mem_keys (pp : ℕ → ℕ) (evs : List MeetEvent) (c : Dict ℕ)
    (t : String) (h : t ∈ dKeys c) :
    t ∈ dKeys (evs.foldl (fun ceilings event =>
      ceilTeams pp (teamAthletes event) (sortStrings (dKeys (teamAthletes event))) 1 ceilings) c) := by
  induction evs generalizing c with
  | nil => exact h
  | cons ev rest ih =>
    exact ih _ (ceilTeams_mem_keys pp _ _ 1 c t h)

theorem mem_dKeys_teamAthletes (event : MeetEvent) (t : String) :
    t ∈ dKeys (teamAthletes event) ↔ ∃ en ∈ event.entries, en.athlete.team = t := by
  unfold teamAthletes
  have hgen : ∀ (l : List EventEntry) (d : Dict ℕ),
      t ∈ dKeys (l.foldl (fun d2 e => dSet d2 e.athlete.team (dGetD d2 e.athlete.team 0 + 1)) d)
        ↔ t ∈ dKeys d ∨ ∃ en ∈ l, en.athlete.team = t := by
    intro l
    induction l with
    | nil => simp
    | cons e rest ih =>
      intro d
      simp only [List.foldl_cons, ih, mem_dKeys_dSet, List.mem_cons]
      constructor
      · rintro ((h | h) | h)
        · exact Or.inr ⟨e, Or.inl rfl, h.symm⟩
        · exact Or.inl h
        · obtain ⟨en, hen, he⟩ := h
          exact Or.inr ⟨en, Or.inr hen, he⟩
      · rintro (h | ⟨en, (rfl | hen), he⟩)
        · exact Or.inl (Or.inr h)
        · exact Or.inl (Or.inl he.symm)
        · exact Or.inr ⟨en, hen, he⟩
  rw [hgen]
  simp [dKeys]

theorem mem_sortStrings (l : List String) (t : String) :
    t ∈ sortStrings l ↔ t ∈ l :=
  (List.mergeSort_perm l strLe).mem_iff

theorem ceil_fold_untouched (pp : ℕ → ℕ) (evs : List MeetEvent) (c : Dict ℕ)
    (t : String)
    (h : ∀ ev ∈ evs, ∀ en ∈ ev.entries, en.athlete.team ≠ t) :
    dGetD (evs.foldl (fun ceilings event =>
      ceilTeams pp (teamAthletes event) (sortStrings (dKeys (teamAthletes event))) 1 ceilings) c) t 0
      = dGetD c t 0 := by
  induction evs generalizing c with
  | nil => rfl
  | cons ev rest ih =>
    simp only [List.foldl_cons]
    rw [ih _ (fun e he => h e (List.mem_cons_of_mem _ he))]
    apply ceilTeams_untouched
    rw [mem_sortStrings, mem_dKeys_teamAthletes]
    rintro ⟨en, hen, he⟩
    exact h ev (List.mem_cons_self _ _) en hen he

theorem ceil_init_find (actual : Dict TeamScore) (state : MeetState) (team : String) :
    dFind? ((allTeamsOf state).map (fun t => (t, actualPts actual t))) team
      = if team ∈ allTeamsOf state then some (actualPts actual team) else none :=
  dFind?_map_key (allTeamsOf state) (fun t => actualPts actual t) team

theorem dKeys_map_key {β : Type} (S : List String) (f : String → β) :
    dKeys (S.map (fun s => (s, f s))) = S := by
  induction S with
  | nil => rfl
  | cons a t ih => exact congrArg (List.cons a) ih

theorem ceiling_ge_actual (pp : ℕ → ℕ) (actual : Dict TeamScore) (state : MeetState)
    (gender : Gender) (team : String) (hmem : team ∈ allTeamsOf state) :
    actualPts actual team ≤
      dGetD (compute_optimistic_ceiling pp actual state gender) team 0 := by
  unfold compute_optimistic_ceiling
  refine le_trans ?_ (ceil_fold_le pp _ _ team)
  simp only [dGetD, ceil_init_find, if_pos hmem, Option.getD_some]
  exact le_rfl

/-- C1 (amended): on every snapshot, every team's seed projection from
`compute_seed_projection` is at least its actual points from
`compute_actual_scores`, and the optimistic ceiling from
`compute_optimistic_ceiling` is at least the actual points for every
team appearing (with a nonempty name) on an event entry; the ceiling
need not dominate the seed projection (see the counterexample). -/
theorem C1_projection_and_ceiling_dominate_actual (pp : ℕ → ℕ) (state : MeetState)
    (gender : Gender) (team : String) :
    (actualPts (compute_actual_scores pp state gender) team : ℚ) ≤
      dGetD (compute_seed_projection pp (compute_actual_scores pp state gender)
        state gender) team 0 ∧
    (team ∈ allTeamsOf state →
      actualPts (compute_actual_scores pp state gender) team ≤
        dGetD (compute_optimistic_ceiling pp (compute_actual_scores pp state gender)
          state gender) team 0) := by
  constructor
  · exact seed_projection_ge_actual pp _ state gender team
  · intro hmem
    exact ceiling_ge_actual pp _ state gender team hmem

/-- C1 fails as stated: with the standard (valid) table, on the
snapshot `stAB` team B's optimistic ceiling is 8, strictly below its
seed projection 10 — the ceiling is not an upper bound on the
projection. -/
theorem C1_counterexample_ceiling_below_projection :
    ValidTable ppStd ∧
    (((dGetD (compute_optimistic_ceiling ppStd (compute_actual_scores ppStd stAB .men)
        stAB .men) "B" 0 : ℕ) : ℚ)
      < dGetD (compute_seed_projection ppStd (compute_actual_scores ppStd stAB .men)
        stAB .men) "B" 0) :=
  ⟨ppStd_valid, by with_unfolding_all decide⟩

/-- Witness for C1 at the concrete snapshot `stAB`, team B. -/
theorem C1_projection_and_ceiling_dominate_actual_witness :
    ("B" ∈ allTeamsOf stAB) ∧
    ((actualPts (compute_actual_scores ppStd stAB .men) "B" : ℚ) ≤
      dGetD (compute_seed_projection ppStd (compute_actual_scores ppStd stAB .men)
        stAB .men) "B" 0 ∧
    actualPts (compute_actual_scores ppStd stAB .men) "B" ≤
      dGetD (compute_optimistic_ceiling ppStd (compute_actual_scores ppStd stAB .men)
        stAB .men) "B" 0) :=
  ⟨by with_unfolding_all decide,
   (C1_projection_and_ceiling_dominate_actual ppStd stAB .men "B").1,
   (C1_projection_and_ceiling_dominate_actual ppStd stAB .men "B").2
     (by with_unfolding_all decide)⟩

/-- C10: the ceiling map has a key for every team with a nonempty name
appearing on any entry of any event of the snapshot (either gender, any
round); each such team's ceiling is at least its actual points, and
equals them exactly when the team has no entrant in the upcoming finals
of the gender. -/
theorem C10_ceiling_covers_all_entered_teams (pp : ℕ → ℕ) (state : MeetState)
    (gender : Gender) (team : String)
    (hne : team ≠ "")
    (hex : ∃ ev ∈ state.events, ∃ en ∈ ev.entries, en.athlete.team = team) :
    team ∈ dKeys (compute_optimistic_ceiling pp (compute_actual_scores pp state gender)
      state gender) ∧
    actualPts (compute_actual_scores pp state gender) team ≤
      dGetD (compute_optimistic_ceiling pp (compute_actual_scores pp state gender)
        state gender) team 0 ∧
    ((∀ ev ∈ get_upcoming_finals state gender, ∀ en ∈ ev.entries, en.athlete.team ≠ team) →
      dGetD (compute_optimistic_ceiling pp (compute_actual_scores pp state gender)
        state gender) team 0
        = actualPts (compute_actual_scores pp state gender) team) := by
  have hmem : team ∈ allTeamsOf state := (mem_allTeamsOf state team).mpr ⟨hne, hex⟩
  refine ⟨?_, ?_, ?_⟩
  · unfold compute_optimistic_ceiling
    apply ceil_fold_mem_keys
    rw [dKeys_map_key]
    exact hmem
  · exact ceiling_ge_actual pp _ state gender team hmem
  · intro hnoent
    unfold compute_optimistic_ceiling
    rw [ceil_fold_untouched pp _ _ team hnoent]
    simp only [dGetD, ceil_init_find, if_pos hmem, Option.getD_some]

/-- Witness for C10: on `stDone` team C appears only in the completed
final, so its ceiling equals its actual points. -/
theorem C10_ceiling_covers_all_entered_teams_witness :
    ("C" ≠ "" ∧ ∃ ev ∈ stDone.events, ∃ en ∈ ev.entries, en.athlete.team = "C") ∧
    ("C" ∈ dKeys (compute_optimistic_ceiling ppStd (compute_actual_scores ppStd stDone .men)
      stDone .men) ∧
    actualPts (compute_actual_scores ppStd stDone .men) "C" ≤
      dGetD (compute_optimistic_ceiling ppStd (compute_actual_scores ppStd stDone .men)
        stDone .men) "C" 0 ∧
    ((∀ ev ∈ get_upcoming_finals stDone .men, ∀ en ∈ ev.entries, en.athlete.team ≠ "C") →
      dGetD (compute_optimistic_ceiling ppStd (compute_actual_scores ppStd stDone .men)
        stDone .men) "C" 0
        = actualPts (compute_actual_scores ppStd stDone .men) "C")) :=
  ⟨⟨by decide, by decide⟩,
   C10_ceiling_covers_all_entered_teams ppStd stDone .men "C" (by decide)
     (by decide)⟩

/-- C8: `compute_actual_scores` credits `PLACE_POINTS[p]` to an
athlete's team exactly when the final place `p` is set and lies in the
scoring table's domain (places 1-8); an absent or out-of-domain place
contributes nothing, for both regular completed finals and complete
combined events. -/
theorem C8_tabulator_scores_exactly_places_1_to_8 (pp : ℕ → ℕ) (state : MeetState)
    (gender : Gender) (team : String) :
    actualPts (compute_actual_scores pp state gender) team
      = claimedActualPoints pp state gender team := by
  unfold compute_actual_scores claimedActualPoints
  rw [actualPts_fold_combined, actualPts_fold_events]
  simp [actualPts, dFind?]

/-! ### Degenerate branch of the simulator (towards C6) -/

theorem foldl_max_mem_nat (vs : List ℕ) (v0 : ℕ) :
    vs.foldl max v0 = v0 ∨ vs.foldl max v0 ∈ vs := by
  induction vs generalizing v0 with
  | nil => exact Or.inl rfl
  | cons v rest ih =>
    rw [List.foldl_cons]
    rcases ih (max v0 v) with h | h
    · rw [h]
      rcases max_choice v0 v with h2 | h2
      · rw [h2]
        exact Or.inl rfl
      · rw [h2]
        exact Or.inr (List.mem_cons_self _ _)
    · exact Or.inr (List.mem_cons_of_mem _ h)

theorem mapM_eq_map {α β : Type} (l : List α) (f : α → Option β) (g : α → β)
    (h : ∀ x ∈ l, f x = some (g x)) : l.mapM f = some (l.map g) := by
  induction l with
  | nil => rfl
  | cons a t ih =>
    rw [List.mapM_cons, h a (List.mem_cons_self _ _),
      ih (fun x hx => h x (List.mem_cons_of_mem _ hx))]
    rfl

theorem maxActualPts_cons (t0 : String) (ts0 : TeamScore) (rest : Dict TeamScore) :
    maxActualPts ((t0, ts0) :: rest)
      = (rest.map (fun p => p.2.actual_points)).foldl max ts0.actual_points := by
  unfold maxActualPts
  simp only [List.map_cons, List.foldl_cons, Nat.zero_max]

theorem degenerate_winners_ne_nil (t0 : String) (ts0 : TeamScore)
    (rest : Dict TeamScore) :
    ((((t0, ts0) :: rest).filter
      (fun p => decide (p.2.actual_points = maxActualPts ((t0, ts0) :: rest)))).map
        Prod.fst) ≠ [] := by
  set actual := (t0, ts0) :: rest with hact
  rw [maxActualPts_cons]
  rcases foldl_max_mem_nat (rest.map (fun p => p.2.actual_points)) ts0.actual_points
    with h | h
  · intro hc
    rw [List.map_eq_nil, List.filter_eq_nil] at hc
    refine hc (t0, ts0) (List.mem_cons_self _ _) ?_
    simp [hact, maxActualPts_cons, h]
  · obtain ⟨p2, hp2, hval⟩ := List.mem_map.mp h
    intro hc
    rw [List.map_eq_nil, List.filter_eq_nil] at hc
    refine hc p2 (List.mem_cons_of_mem _ hp2) ?_
    simp [hact, maxActualPts_cons, hval]

theorem degenerateWinProb_eq_spec (actual : Dict TeamScore) :
    degenerateWinProb actual = some (degenerateDistributionSpec actual) := by
  cases actual with
  | nil => rfl
  | cons hd rest =>
    obtain ⟨t0, ts0⟩ := hd
    have hwin := degenerate_winners_ne_nil t0 ts0 rest
    unfold degenerateWinProb degenerateDistributionSpec
    rw [maxActualPts_cons] at hwin ⊢
    set winners := (((t0, ts0) :: rest).filter
      (fun p => decide (p.2.actual_points =
        (rest.map (fun p => p.2.actual_points)).foldl max ts0.actual_points))).map
          Prod.fst with hw
    apply mapM_eq_map
    intro p hp
    by_cases hc : winners.contains p.1
    · have hlen : (winners.length : ℚ) ≠ 0 := by
        simp only [ne_eq, Nat.cast_eq_zero, List.length_eq_zero]
        exact hwin
      simp only [hc, if_pos, divQ?, if_neg hlen, Option.bind_eq_bind,
        Option.some_bind, if_true]
      rfl
    · simp only [hc, Bool.false_eq_true, if_false, Option.bind_eq_bind,
        Option.some_bind]
      rfl

/-! ### No-fault lemmas for the simulator (towards C4) -/

theorem pickAux_lt_length (r : ℚ) :
    ∀ (l : List ℚ) (acc : ℚ) (i : ℕ), pickAux r acc l = some i → i < l.length := by
  intro l
  induction l with
  | nil => intro acc i h; exact absurd h (by simp [pickAux])
  | cons p rest ih =>
    intro acc i h
    rw [pickAux] at h
    by_cases hc : r ≤ acc + p
    · rw [if_pos hc] at h
      cases h
      simp
    · rw [if_neg hc] at h
      simp only [Option.map_eq_some'] at h
      obtain ⟨j, hj, rfl⟩ := h
      have := ih _ _ hj
      simp only [List.length_cons]
      omega

theorem bind_isSome {α β : Type} {m : Option α} {f : α → Option β} (a : α)
    (hm : m = some a) (h : (f a).isSome) : (m >>= f).isSome := by
  subst hm
  exact h

theorem some_bind_eq {α β : Type} (a : α) (f : α → Option β) :
    (some a >>= f) = f a := rfl

theorem mapM_isSome {α β : Type} (l : List α) (f : α → Option β)
    (h : ∀ x ∈ l, (f x).isSome) : (l.mapM f).isSome := by
  induction l with
  | nil => rfl
  | cons a t ih =>
    rw [List.mapM_cons]
    obtain ⟨b, hb⟩ := Option.isSome_iff_exists.mp (h a (List.mem_cons_self _ _))
    obtain ⟨bs, hbs⟩ := Option.isSome_iff_exists.mp
      (ih (fun x hx => h x (List.mem_cons_of_mem _ hx)))
    rw [hb, some_bind_eq, hbs, some_bind_eq]
    rfl

theorem divQ?_isSome {a b : ℚ} (hb : b ≠ 0) : (divQ? a b).isSome := by
  simp [divQ?, hb]

theorem eventProbs_isSome (event : MeetEvent) : (eventProbs event).isSome := by
  cases hr : _rank_entries_by_seed event with
  | nil =>
    simp only [eventProbs, hr]
    rfl
  | cons e rest =>
    have hpos : ∀ s ∈ (List.range (e :: rest).length).map
        (fun i => _seed_rank_to_strength (i + 1) (e :: rest).length
          (_get_top_seed_win_prob event)), 0 < s := by
      intro s hs
      obtain ⟨i, _, rfl⟩ := List.mem_map.mp hs
      unfold _seed_rank_to_strength
      split
      · exact one_pos
      · positivity
    have hne : ((List.range (e :: rest).length).map
        (fun i => _seed_rank_to_strength (i + 1) (e :: rest).length
          (_get_top_seed_win_prob event))) ≠ [] := by
      simp
    have htot : 0 < ((List.range (e :: rest).length).map
        (fun i => _seed_rank_to_strength (i + 1) (e :: rest).length
          (_get_top_seed_win_prob event))).sum :=
      List.sum_pos _ hpos hne
    obtain ⟨probs, hprobs⟩ := Option.isSome_iff_exists.mp
      (mapM_isSome ((List.range (e :: rest).length).map
          (fun i => _seed_rank_to_strength (i + 1) (e :: rest).length
            (_get_top_seed_win_prob event)))
        (fun s => divQ? s (((List.range (e :: rest).length).map
          (fun i => _seed_rank_to_strength (i + 1) (e :: rest).length
            (_get_top_seed_win_prob event))).sum))
        (fun s _ => divQ?_isSome (ne_of_gt htot)))
    simp only [eventProbs, hr]
    rw [hprobs]
    rfl

theorem simEvent_isSome_bounded (pp : ℕ → ℕ) (rng : ℕ → ℚ) :
    ∀ (n : ℕ) (re : List (EventEntry × ℚ)), re.length ≤ n →
      ∀ (place : ℕ) (scores : Dict ℚ) (k : ℕ),
        (simEvent pp rng re place scores k).isSome := by
  intro n
  induction n with
  | zero =>
    intro re hl place scores k
    match re, hl with
    | [], _ => rw [simEvent]; rfl
  | succ m ih =>
    intro re hl place scores k
    match re with
    | [] => rw [simEvent]; rfl
    | e0 :: rest =>
      rw [simEvent]
      by_cases hp : place > 8
      · rw [if_pos hp]; rfl
      · rw [if_neg hp]
        by_cases ht : ((e0 :: rest).map Prod.snd).sum ≤ 0
        · rw [if_pos ht]; rfl
        · rw [if_neg ht]
          dsimp only
          have hchos : ((pickAux ((rng k) * ((e0 :: rest).map Prod.snd).sum) 0
              ((e0 :: rest).map Prod.snd)).getD 0) < (e0 :: rest).length := by
            cases hpk : pickAux ((rng k) * ((e0 :: rest).map Prod.snd).sum) 0
                ((e0 :: rest).map Prod.snd) with
            | none => simp
            | some i =>
              have := pickAux_lt_length _ _ _ _ hpk
              simpa using this
          split
          · rename_i heq
            exact absurd heq (by
              simp only [popIdx, Option.map_eq_none']
              rw [List.getElem?_eq_getElem hchos]
              simp)
          · rename_i w re2 heq
            simp only [popIdx, Option.map_eq_some'] at heq
            obtain ⟨a, ha, hpair⟩ := heq
            have hre2 : re2 = (e0 :: rest).eraseIdx ((pickAux
                ((rng k) * ((e0 :: rest).map Prod.snd).sum) 0
                ((e0 :: rest).map Prod.snd)).getD 0) :=
              (congrArg Prod.snd hpair).symm
            have hlen2 : re2.length ≤ m := by
              rw [hre2, List.length_eraseIdx, if_pos hchos]
              simp only [List.length_cons] at hl ⊢
              omega
            exact ih re2 hlen2 _ _ _

theorem simEvent_isSome (pp : ℕ → ℕ) (rng : ℕ → ℚ) (re : List (EventEntry × ℚ))
    (place : ℕ) (scores : Dict ℚ) (k : ℕ) :
    (simEvent pp rng re place scores k).isSome :=
  simEvent_isSome_bounded pp rng re.length re le_rfl place scores k

theorem runEvents_isSome (pp : ℕ → ℕ) (rng : ℕ → ℚ)
    (eds : List (MeetEvent × List EventEntry × List ℚ)) :
    ∀ (scores : Dict ℚ) (k : ℕ), (runEvents pp rng eds scores k).isSome := by
  induction eds with
  | nil => intro scores k; rfl
  | cons ed rest ih =>
    intro scores k
    rw [runEvents]
    obtain ⟨r, hr⟩ := Option.isSome_iff_exists.mp
      (simEvent_isSome pp rng (ed.2.1.zip ed.2.2) 1 scores k)
    exact bind_isSome r hr (ih _ _)

theorem foldlM_some_isSome {α β : Type} (g : β → α → β) (l : List α) :
    ∀ (b : β), (l.foldlM (fun x y => some (g x y)) b).isSome := by
  induction l with
  | nil => intro b; rfl
  | cons a t ih =>
    intro b
    rw [List.foldlM_cons, some_bind_eq]
    exact ih _

theorem credit_fun_eq (m : ℚ) (hm : m ≠ 0) :
    (fun (w2 : Dict ℚ) (t : String) => do
      let c ← divQ? 1 m
      pure (dSet w2 t (dGetD w2 t 0 + c))) =
    (fun (w2 : Dict ℚ) (t : String) => some (dSet w2 t (dGetD w2 t 0 + 1 / m))) := by
  funext w2 t
  simp [divQ?, hm]

theorem credit_foldlM_isSome (m : ℚ) (hm : m ≠ 0) (l : List String) :
    ∀ (w : Dict ℚ),
      (l.foldlM (fun w2 t => do
        let c ← divQ? 1 m
        pure (dSet w2 t (dGetD w2 t 0 + c))) w).isSome := by
  intro w
  rw [credit_fun_eq m hm]
  exact foldlM_some_isSome _ l w

theorem addCredit_isSome (wc : Dict ℚ) (leaders : List String) :
    (addCredit wc leaders).isSome := by
  cases leaders with
  | nil => rfl
  | cons a t =>
    have hd : ((a :: t).length : ℚ) ≠ 0 := by
      have : (0 : ℚ) < ((a :: t).length : ℚ) := by
        simp only [List.length_cons]
        push_cast
        have h0 : (0 : ℚ) ≤ (t.length : ℚ) := Nat.cast_nonneg t.length
        linarith
      linarith
    exact credit_foldlM_isSome _ hd (a :: t) wc

theorem runIters_isSome (pp : ℕ → ℕ) (rng : ℕ → ℚ) (actual : Dict TeamScore)
    (all_teams : List String) (eds : List (MeetEvent × List EventEntry × List ℚ)) :
    ∀ (n k : ℕ) (wc : Dict ℚ), (runIters pp rng actual all_teams eds n k wc).isSome := by
  intro n
  induction n with
  | zero => intro k wc; rfl
  | succ m ih =>
    intro k wc
    rw [runIters]
    obtain ⟨r, hr⟩ := Option.isSome_iff_exists.mp
      (runEvents_isSome pp rng eds (initSimScores actual all_teams) k)
    refine bind_isSome r hr ?_
    obtain ⟨wc2, hwc2⟩ := Option.isSome_iff_exists.mp (addCredit_isSome wc
      ((r.1.filter (fun p => decide (p.2 = maxValues (dValues r.1)))).map Prod.fst))
    dsimp only
    exact bind_isSome wc2 hwc2 (ih _ _)

/-! ### Nonnegativity of the accumulated credit (towards C4 and C5) -/

theorem dFind?_mem_values {α : Type} (d : Dict α) (k : String) (v : α)
    (h : dFind? d k = some v) : v ∈ dValues d := by
  induction d with
  | nil => exact absurd h (by simp [dFind?])
  | cons hd t ih =>
    rw [dFind?] at h
    by_cases he : hd.1 = k
    · rw [if_pos he] at h
      cases h
      exact List.mem_cons_self _ _
    · rw [if_neg he] at h
      exact List.mem_cons_of_mem _ (ih h)

theorem dGetD_nonneg (d : Dict ℚ) (k : String)
    (h : ∀ v ∈ dValues d, 0 ≤ v) : 0 ≤ dGetD d k 0 := by
  unfold dGetD
  cases hf : dFind? d k with
  | none => simp
  | some v => simpa using h v (dFind?_mem_values d k v hf)

theorem dValues_dSet_nonneg (d : Dict ℚ) (k : String) (v2 : ℚ)
    (h : ∀ v ∈ dValues d, 0 ≤ v) (h2 : 0 ≤ v2) :
    ∀ v ∈ dValues (dSet d k v2), 0 ≤ v := by
  induction d with
  | nil =>
    intro v hv
    simp only [dSet, dValues, List.map_cons, List.map_nil, List.mem_singleton] at hv
    exact hv ▸ h2
  | cons hd t ih =>
    intro v hv
    rw [dSet] at hv
    by_cases he : hd.1 = k
    · rw [if_pos he] at hv
      simp only [dValues, List.map_cons, List.mem_cons] at hv
      rcases hv with rfl | hv
      · exact h2
      · exact h v (List.mem_cons_of_mem _ hv)
    · rw [if_neg he] at hv
      simp only [dValues, List.map_cons, List.mem_cons] at hv
      rcases hv with rfl | hv
      · exact h hd.2 (List.mem_cons_self _ _)
      · exact ih (fun u hu => h u (List.mem_cons_of_mem _ hu)) v hv

theorem foldlM_credit_some_nonneg (c0 : ℚ) (hc : 0 ≤ c0) (l : List String) :
    ∀ (w w2 : Dict ℚ),
      l.foldlM (fun w3 t => some (dSet w3 t (dGetD w3 t 0 + c0))) w = some w2 →
      (∀ v ∈ dValues w, 0 ≤ v) → ∀ v ∈ dValues w2, 0 ≤ v := by
  induction l with
  | nil =>
    intro w w2 h hw
    cases h
    exact hw
  | cons a rest ih =>
    intro w w2 h hw
    rw [List.foldlM_cons, some_bind_eq] at h
    refine ih _ _ h ?_
    apply dValues_dSet_nonneg _ _ _ hw
    have h1 := dGetD_nonneg w a hw
    linarith

theorem credit_foldlM_nonneg (m : ℚ) (hm : 0 < m) (l : List String) :
    ∀ (w w2 : Dict ℚ),
      (l.foldlM (fun w3 t => do
        let c ← divQ? 1 m
        pure (dSet w3 t (dGetD w3 t 0 + c))) w) = some w2 →
      (∀ v ∈ dValues w, 0 ≤ v) → ∀ v ∈ dValues w2, 0 ≤ v := by
  intro w w2 hfold hw
  rw [credit_fun_eq m (ne_of_gt hm)] at hfold
  refine foldlM_credit_some_nonneg (1 / m) (by positivity) l w w2 hfold hw

theorem addCredit_nonneg (wc wc2 : Dict ℚ) (leaders : List String)
    (h : addCredit wc leaders = some wc2) (hw : ∀ v ∈ dValues wc, 0 ≤ v) :
    ∀ v ∈ dValues wc2, 0 ≤ v := by
  cases leaders with
  | nil =>
    cases h
    exact hw
  | cons a t =>
    have hm : (0 : ℚ) < ((a :: t).length : ℚ) := by
      simp only [List.length_cons]
      positivity
    exact credit_foldlM_nonneg _ hm (a :: t) wc wc2 h hw

theorem runIters_nonneg (pp : ℕ → ℕ) (rng : ℕ → ℚ) (actual : Dict TeamScore)
    (all_teams : List String) (eds : List (MeetEvent × List EventEntry × List ℚ)) :
    ∀ (n k : ℕ) (wc : Dict ℚ) (wc2 : Dict ℚ × ℕ),
      runIters pp rng actual all_teams eds n k wc = some wc2 →
      (∀ v ∈ dValues wc, 0 ≤ v) → ∀ v ∈ dValues wc2.1, 0 ≤ v := by
  intro n
  induction n with
  | zero =>
    intro k wc wc2 h hw
    rw [runIters] at h
    cases h
    exact hw
  | succ m ih =>
    intro k wc wc2 h hw
    rw [runIters] at h
    obtain ⟨r, hr⟩ := Option.isSome_iff_exists.mp
      (runEvents_isSome pp rng eds (initSimScores actual all_teams) k)
    rw [hr, some_bind_eq] at h
    obtain ⟨wcmid, hmid⟩ := Option.isSome_iff_exists.mp (addCredit_isSome wc
      ((r.1.filter (fun p => decide (p.2 = maxValues (dValues r.1)))).map Prod.fst))
    dsimp only at h
    rw [hmid, some_bind_eq] at h
    exact ih _ _ _ h (addCredit_nonneg _ _ _ hmid hw)

theorem le_sum_of_mem_nonneg {a : ℚ} {l : List ℚ} (hm : a ∈ l)
    (h : ∀ x ∈ l, 0 ≤ x) : a ≤ l.sum := by
  induction l with
  | nil => exact absurd hm (List.not_mem_nil a)
  | cons b t ih =>
    rw [List.sum_cons]
    rcases List.mem_cons.mp hm with rfl | hm2
    · have : 0 ≤ t.sum := List.sum_nonneg (fun x hx => h x (List.mem_cons_of_mem _ hx))
      linarith
    · have hb := h b (List.mem_cons_self _ _)
      have := ih hm2 (fun x hx => h x (List.mem_cons_of_mem _ hx))
      linarith

theorem total_pos_of_dGetD_pos (wc : Dict ℚ) (t : String)
    (hpos : 0 < dGetD wc t 0) (hnn : ∀ v ∈ dValues wc, 0 ≤ v) :
    0 < (dValues wc).sum := by
  cases hf : dFind? wc t with
  | none => rw [dGetD, hf] at hpos; simp at hpos
  | some v =>
    rw [dGetD, hf, Option.getD_some] at hpos
    exact lt_of_lt_of_le hpos (le_sum_of_mem_nonneg (dFind?_mem_values wc t v hf) hnn)

/-! ### Majorization machinery (towards C7) -/

theorem ppGet_in (pp : ℕ → ℕ) (p : ℕ) (h1 : 1 ≤ p) (h8 : p ≤ 8) :
    ppGet pp p = pp p := by
  simp [ppGet, ppMem, h1, h8]

theorem ppGet_out (pp : ℕ → ℕ) (p : ℕ) (h : ¬(1 ≤ p ∧ p ≤ 8)) :
    ppGet pp p = 0 := by
  rw [ppGet, if_neg]
  simp only [ppMem, Bool.and_eq_true, decide_eq_true_eq]
  tauto

theorem sum_map_take_succ (f2 : ℕ → ℕ) (l : List ℕ) (n : ℕ) :
    ((l.take (n + 1)).map f2).sum
      = ((l.take n).map f2).sum + ((l[n]?).map f2).getD 0 := by
  rw [List.take_succ, List.map_append, List.sum_append]
  cases h : l[n]? <;> simp [h]

theorem take_majorize (pp : ℕ → ℕ)
    (hmono : ∀ p q, 1 ≤ p → p ≤ q → q ≤ 8 → pp q ≤ pp p) :
    ∀ (avail : List ℕ), avail.Sorted (· < ·) → (∀ x ∈ avail, 1 ≤ x ∧ x ≤ 8) →
      ∀ (R : List ℕ) (k : ℕ), R.Sublist avail → R.length ≤ k →
        (R.map (ppGet pp)).sum ≤ ((avail.take k).map (ppGet pp)).sum := by
  intro avail
  induction avail with
  | nil =>
    intro _ _ R k hsub hk
    rw [List.sublist_nil.mp hsub]
    simp
  | cons a A ihA =>
    intro hsort hrange R k hsub hk
    have hsortA : A.Sorted (· < ·) := hsort.of_cons
    have hrangeA : ∀ x ∈ A, 1 ≤ x ∧ x ≤ 8 :=
      fun x hx => hrange x (List.mem_cons_of_mem _ hx)
    cases hsub with
    | cons _ h =>
      cases k with
      | zero =>
        have hR : R = [] := List.length_eq_zero.mp (Nat.le_zero.mp hk)
        subst hR
        simp
      | succ k2 =>
        have h1 := ihA hsortA hrangeA R (k2 + 1) h hk
        have h2 : ((A.take (k2 + 1)).map (ppGet pp)).sum
            ≤ ppGet pp a + ((A.take k2).map (ppGet pp)).sum := by
          rw [sum_map_take_succ]
          have h3 : ((A[k2]?).map (ppGet pp)).getD 0 ≤ ppGet pp a := by
            cases hA : A[k2]? with
            | none => simp
            | some x =>
              have hxA : x ∈ A := List.getElem?_mem hA
              have hax : a < x := (List.pairwise_cons.mp hsort).1 x hxA
              have hra := hrange a (List.mem_cons_self _ _)
              have hrx := hrangeA x hxA
              simp only [Option.map_some', Option.getD_some]
              rw [ppGet_in pp x hrx.1 hrx.2, ppGet_in pp a hra.1 hra.2]
              exact hmono a x hra.1 (le_of_lt hax) hrx.2
          omega
        calc (R.map (ppGet pp)).sum ≤ ((A.take (k2 + 1)).map (ppGet pp)).sum := h1
          _ ≤ ppGet pp a + ((A.take k2).map (ppGet pp)).sum := h2
          _ = (((a :: A).take (k2 + 1)).map (ppGet pp)).sum := by
              simp [List.take_succ_cons]
    | cons₂ _ h =>
      cases k with
      | zero => simp at hk
      | succ k2 =>
        have h1 := ihA hsortA hrangeA _ k2 h (by simpa using hk)
        simp only [List.map_cons, List.sum_cons, List.take_succ_cons]
        exact Nat.add_le_add_left h1 _

theorem sublist_of_sorted_subset :
    ∀ (A R : List ℕ), R.Sorted (· < ·) → A.Sorted (· < ·) →
      (∀ x ∈ R, x ∈ A) → R.Sublist A := by
  intro A
  induction A with
  | nil =>
    intro R _ _ hsubset
    cases R with
    | nil => exact List.Sublist.refl []
    | cons r t => exact absurd (hsubset r (List.mem_cons_self _ _)) (List.not_mem_nil r)
  | cons a A ihA =>
    intro R hRs hAs hsubset
    cases R with
    | nil => exact List.nil_sublist _
    | cons r t =>
      by_cases hra : r = a
      · subst hra
        refine List.Sublist.cons₂ r (ihA t hRs.of_cons hAs.of_cons ?_)
        intro x hx
        have hmem := hsubset x (List.mem_cons_of_mem _ hx)
        rcases List.mem_cons.mp hmem with rfl | h2
        · have := (List.pairwise_cons.mp hRs).1 x hx
          omega
        · exact h2
      · refine List.Sublist.cons a (ihA (r :: t) hRs hAs.of_cons ?_)
        intro x hx
        have hmem := hsubset x hx
        rcases List.mem_cons.mp hmem with rfl | h2
        · rcases List.mem_cons.mp hx with h3 | h3
          · exact absurd h3.symm hra
          · have hlt1 : r < x := (List.pairwise_cons.mp hRs).1 x h3
            have hrA := hsubset r (List.mem_cons_self _ _)
            rcases List.mem_cons.mp hrA with h4 | h4
            · exact absurd h4 hra
            · have : x < r := (List.pairwise_cons.mp hAs).1 r h4
              omega
        · exact h2

theorem sorted_le_mergeSort_nat (l : List ℕ) :
    (l.mergeSort (fun a b => decide (a ≤ b))).Sorted (· ≤ ·) := by
  have h := @List.sorted_mergeSort ℕ (fun a b : ℕ => decide (a ≤ b))
    (fun a b c hab hbc => by
      simp only [decide_eq_true_eq] at *
      omega)
    (fun a b => by
      rcases Nat.le_total a b with h | h <;> simp [h]) l
  exact h.imp (fun hab => by simpa using hab)

theorem sorted_lt_of_le_nodup (l : List ℕ) (h1 : l.Sorted (· ≤ ·)) (h2 : l.Nodup) :
    l.Sorted (· < ·) :=
  (h1.and h2).imp (fun h => lt_of_le_of_ne h.1 h.2)

theorem sum_ppGet_filter (pp : ℕ → ℕ) (ranks : List ℕ) :
    (ranks.map (ppGet pp)).sum
      = ((ranks.filter (fun x => decide (1 ≤ x) && decide (x ≤ 8))).map (ppGet pp)).sum := by
  induction ranks with
  | nil => rfl
  | cons r t ih =>
    rw [List.map_cons, List.sum_cons, ih, List.filter_cons]
    by_cases h : 1 ≤ r ∧ r ≤ 8
    · rw [if_pos (by simpa using h)]
      simp
    · rw [if_neg (by simpa using h), ppGet_out pp r h, Nat.zero_add]

theorem range_getD_sum (f2 : ℕ → ℕ) :
    ∀ (avail : List ℕ) (k : ℕ),
      ((List.range k).map (fun i => ((avail[i]?).map f2).getD 0)).sum
        = ((avail.take k).map f2).sum := by
  intro avail
  induction avail with
  | nil =>
    intro k
    simp
  | cons a A ihA =>
    intro k
    cases k with
    | zero => simp
    | succ m =>
      rw [List.range_succ_eq_map]
      simp only [List.map_cons, List.sum_cons, List.map_map]
      rw [show ((fun i => (((a :: A)[i]?).map f2).getD 0) ∘ Nat.succ)
          = (fun i => ((A[i]?).map f2).getD 0) from funext (fun i => by simp), ihA m]
      simp [List.take_succ_cons]

/-! ### Rank-map lemmas (towards C7) -/

theorem enum_fst_nodup {α : Type} (l : List α) : ((l.enum).map Prod.fst).Nodup := by
  rw [List.enum_map_fst]
  exact List.nodup_range _

theorem eq_of_fst_eq {α : Type} :
    ∀ (l : List (ℕ × α)), ((l.map Prod.fst).Nodup) →
      ∀ (x y : ℕ × α), x ∈ l → y ∈ l → x.1 = y.1 → x = y := by
  intro l
  induction l with
  | nil => intro _ x y hx; exact absurd hx (List.not_mem_nil x)
  | cons a t ih =>
    intro hnd x y hx hy h
    rw [List.map_cons, List.nodup_cons] at hnd
    rcases List.mem_cons.mp hx with rfl | hx2
    · rcases List.mem_cons.mp hy with rfl | hy2
      · rfl
      · exact absurd (h ▸ List.mem_map_of_mem Prod.fst hy2) hnd.1
    · rcases List.mem_cons.mp hy with rfl | hy2
      · exact absurd (h ▸ List.mem_map_of_mem Prod.fst hx2) hnd.1
      · exact ih hnd.2 x y hx2 hy2 h

theorem rankedIdx_fst_nodup (event : MeetEvent) :
    ((rankedIdx event).map Prod.fst).Nodup := by
  have hperm : (rankedIdx event).Perm ((event.entries.enum).filter
      (fun p => p.2.athlete.name != "")) := List.mergeSort_perm _ _
  rw [(hperm.map Prod.fst).nodup_iff]
  exact (enum_fst_nodup event.entries).sublist
    ((List.filter_sublist _).map Prod.fst)

theorem mem_rankedIdx_iff (event : MeetEvent) (q : ℕ × EventEntry) :
    q ∈ rankedIdx event ↔ q ∈ event.entries.enum ∧ q.2.athlete.name ≠ "" := by
  unfold rankedIdx
  rw [(List.mergeSort_perm _ _).mem_iff, List.mem_filter]
  simp [bne_iff_ne]

theorem findIdx?_isSome_of_mem {α : Type} :
    ∀ (l : List (ℕ × α)) (q : ℕ × α), q ∈ l →
      (l.findIdx? (fun p => p.1 == q.1)).isSome := by
  intro l
  induction l with
  | nil => intro q hq; exact absurd hq (List.not_mem_nil q)
  | cons x t ih =>
    intro q hq
    rw [List.findIdx?_cons]
    by_cases hx : x.1 == q.1
    · rw [if_pos hx]
      rfl
    · rw [if_neg hx, List.findIdx?_succ]
      have hqt : q ∈ t := by
        rcases List.mem_cons.mp hq with rfl | h2
        · simp at hx
        · exact h2
      obtain ⟨j, hj⟩ := Option.isSome_iff_exists.mp (ih q hqt)
      rw [hj]
      rfl

theorem findIdx?_some_exists {α : Type} (p : α → Bool) :
    ∀ (l : List α) (i : ℕ), l.findIdx? p = some i → ∃ x ∈ l, p x := by
  intro l
  induction l with
  | nil => intro i h; exact absurd h (by simp)
  | cons a t ih =>
    intro i h
    rw [List.findIdx?_cons] at h
    by_cases hpa : p a
    · exact ⟨a, List.mem_cons_self _ _, hpa⟩
    · rw [if_neg hpa, List.findIdx?_succ] at h
      obtain ⟨j, hj, _⟩ := Option.map_eq_some'.mp h
      obtain ⟨x, hx, hpx⟩ := ih j hj
      exact ⟨x, List.mem_cons_of_mem _ hx, hpx⟩

theorem findIdx?_get_of_fst_nodup {α : Type} :
    ∀ (l : List (ℕ × α)), ((l.map Prod.fst).Nodup) → ∀ (q : ℕ × α), q ∈ l →
      ∀ i, l.findIdx? (fun p => p.1 == q.1) = some i → l[i]? = some q := by
  intro l
  induction l with
  | nil => intro _ q hq; exact absurd hq (List.not_mem_nil q)
  | cons x t ih =>
    intro hnd q hq i hfind
    rw [List.findIdx?_cons] at hfind
    by_cases hx : x.1 == q.1
    · rw [if_pos hx] at hfind
      cases hfind
      have hxq : x = q := by
        rcases List.mem_cons.mp hq with rfl | hqt
        · rfl
        · exfalso
          rw [List.map_cons, List.nodup_cons] at hnd
          have hx1 : x.1 = q.1 := by simpa using hx
          exact hnd.1 (hx1 ▸ List.mem_map_of_mem Prod.fst hqt)
      rw [hxq]
      simp
    · rw [if_neg hx, List.findIdx?_succ] at hfind
      obtain ⟨j, hj, rfl⟩ := Option.map_eq_some'.mp hfind
      have hqt : q ∈ t := by
        rcases List.mem_cons.mp hq with rfl | h2
        · simp at hx
        · exact h2
      rw [List.map_cons, List.nodup_cons] at hnd
      have := ih hnd.2 q hqt j hj
      simpa using this

theorem rankMapGet_spec (event : MeetEvent) (q : ℕ × EventEntry)
    (hq : q ∈ rankedIdx event) :
    ∃ i, (rankedIdx event)[i]? = some q ∧ rankMapGet event q.1 = i + 1 := by
  obtain ⟨i, hi⟩ := Option.isSome_iff_exists.mp (findIdx?_isSome_of_mem _ q hq)
  refine ⟨i, findIdx?_get_of_fst_nodup _ (rankedIdx_fst_nodup event) q hq i hi, ?_⟩
  rw [rankMapGet, hi]

theorem rankMapGet_inj (event : MeetEvent) (q q2 : ℕ × EventEntry)
    (hq : q ∈ rankedIdx event) (hq2 : q2 ∈ rankedIdx event)
    (h : rankMapGet event q.1 = rankMapGet event q2.1) : q = q2 := by
  obtain ⟨i, hgi, hri⟩ := rankMapGet_spec event q hq
  obtain ⟨j, hgj, hrj⟩ := rankMapGet_spec event q2 hq2
  have hij : i = j := by omega
  subst hij
  rw [hgi] at hgj
  cases hgj
  rfl

theorem rankMapGet_unnamed (event : MeetEvent) (p : ℕ × EventEntry)
    (hp : p ∈ event.entries.enum) (hname : p.2.athlete.name = "") :
    rankMapGet event p.1 = 9 := by
  rw [rankMapGet]
  cases hf : (rankedIdx event).findIdx? (fun x => x.1 == p.1) with
  | none => rfl
  | some i =>
    exfalso
    obtain ⟨x, hxmem, hpx⟩ := findIdx?_some_exists _ _ i hf
    have hx1 : x.1 = p.1 := by simpa using hpx
    obtain ⟨hxe, hxn⟩ := (mem_rankedIdx_iff event x).mp hxmem
    have : x = p := eq_of_fst_eq _ (enum_fst_nodup event.entries) x p hxe hp hx1
    rw [this, hname] at hxn
    exact hxn rfl

/-! ### Scenario builder (towards C7) -/

theorem scenarioBpts_take (pp : ℕ → ℕ) (team : String) (event : MeetEvent) :
    scenarioBpts pp team event
      = (((scenarioAvailable team event).take
          (scenarioTeamEntries team event).length).map (ppGet pp)).sum := by
  unfold scenarioBpts
  rw [show ((scenarioTeamEntries team event).enum.map
      (fun q => (((scenarioAvailable team event)[q.1]?).map (ppGet pp)).getD 0))
      = ((scenarioTeamEntries team event).enum.map Prod.fst).map
        (fun i => (((scenarioAvailable team event)[i]?).map (ppGet pp)).getD 0) from by
    rw [List.map_map]
    rfl]
  rw [List.enum_map_fst, range_getD_sum]

theorem scenarioApts_le_scenarioBpts (pp : ℕ → ℕ)
    (hmono : ∀ p q, 1 ≤ p → p ≤ q → q ≤ 8 → pp q ≤ pp p)
    (team : String) (event : MeetEvent) :
    scenarioApts pp team event ≤ scenarioBpts pp team event := by
  rw [scenarioBpts_take pp team event]
  unfold scenarioApts
  have hTEmem : ∀ p ∈ scenarioTeamEntries team event,
      p ∈ event.entries.enum ∧ p.2.athlete.team = team := by
    intro p hp
    rw [scenarioTeamEntries] at hp
    have h2 := List.mem_filter.mp hp
    exact ⟨h2.1, by simpa using h2.2⟩
  have hnamed : ∀ p ∈ scenarioTeamEntries team event,
      (decide (1 ≤ rankMapGet event p.1) && decide (rankMapGet event p.1 ≤ 8)) = true →
      p ∈ rankedIdx event := by
    intro p hp hin
    by_cases hnm : p.2.athlete.name = ""
    · exfalso
      rw [rankMapGet_unnamed event p (hTEmem p hp).1 hnm] at hin
      simp at hin
    · exact (mem_rankedIdx_iff event p).mpr ⟨(hTEmem p hp).1, hnm⟩
  have hTEnodup : (scenarioTeamEntries team event).Nodup := by
    rw [scenarioTeamEntries]
    exact ((enum_fst_nodup event.entries).of_map).filter _
  have hA : (((scenarioTeamEntries team event).map
      (fun p => ppGet pp (rankMapGet event p.1))).sum)
      = ((((scenarioTeamEntries team event).map
        (fun p => rankMapGet event p.1)).map (ppGet pp)).sum) := by
    rw [List.map_map]
    rfl
  rw [hA, sum_ppGet_filter]
  have hranksInNodup : (((scenarioTeamEntries team event).map
      (fun p => rankMapGet event p.1)).filter
        (fun x => decide (1 ≤ x) && decide (x ≤ 8))).Nodup := by
    rw [List.filter_map]
    refine List.Nodup.map_on ?_ (hTEnodup.filter _)
    intro x hx y hy hxy
    have hx2 := List.mem_filter.mp hx
    have hy2 := List.mem_filter.mp hy
    exact rankMapGet_inj event x y
      (hnamed x hx2.1 (by simpa using hx2.2)) (hnamed y hy2.1 (by simpa using hy2.2))
      hxy
  have hperm := List.mergeSort_perm (((scenarioTeamEntries team event).map
      (fun p => rankMapGet event p.1)).filter
        (fun x => decide (1 ≤ x) && decide (x ≤ 8))) (fun a b => decide (a ≤ b))
  rw [← (hperm.map (ppGet pp)).sum_eq]
  have hRnodup := hperm.nodup_iff.mpr hranksInNodup
  have hRsorted := sorted_lt_of_le_nodup _ (sorted_le_mergeSort_nat _) hRnodup
  have havailSorted : (scenarioAvailable team event).Sorted (· < ·) := by
    rw [scenarioAvailable]
    have hpl : List.Pairwise (· < ·) (List.range' 1 8) := List.pairwise_lt_range' 1 8
    exact hpl.filter _
  have havailRange : ∀ x ∈ scenarioAvailable team event, 1 ≤ x ∧ x ≤ 8 := by
    intro x hx
    rw [scenarioAvailable] at hx
    have h2 := (List.mem_filter.mp hx).1
    rw [List.mem_range'_1] at h2
    omega
  have hsubset : ∀ x ∈ (((scenarioTeamEntries team event).map
      (fun p => rankMapGet event p.1)).filter
        (fun x => decide (1 ≤ x) && decide (x ≤ 8))).mergeSort
          (fun a b => decide (a ≤ b)),
      x ∈ scenarioAvailable team event := by
    intro x hx
    have hx2 := hperm.mem_iff.mp hx
    rw [List.filter_map] at hx2
    obtain ⟨p, hpmem, rfl⟩ := List.mem_map.mp hx2
    have hp2 := List.mem_filter.mp hpmem
    have hprk : p ∈ rankedIdx event := hnamed p hp2.1 (by simpa using hp2.2)
    have hin : 1 ≤ rankMapGet event p.1 ∧ rankMapGet event p.1 ≤ 8 := by
      have h3 := hp2.2
      simp only [Function.comp, Bool.and_eq_true, decide_eq_true_eq] at h3
      exact h3
    rw [scenarioAvailable, List.mem_filter]
    refine ⟨by rw [List.mem_range'_1]; omega, ?_⟩
    suffices hno : rankMapGet event p.1 ∉ scenarioOccupied team event by
      simpa using hno
    intro hocc
    rw [scenarioOccupied] at hocc
    obtain ⟨q, hqmem, hqeq⟩ := List.mem_map.mp hocc
    have hq2 := List.mem_filter.mp hqmem
    have heqqp : q = p := rankMapGet_inj event q p hq2.1 hprk hqeq
    have hteam := (hTEmem p hp2.1).2
    rw [heqqp] at hq2
    rw [hteam] at hq2
    simp at hq2
  have hsublist := sublist_of_sorted_subset (scenarioAvailable team event) _
    hRsorted havailSorted hsubset
  have hlen : ((((scenarioTeamEntries team event).map
      (fun p => rankMapGet event p.1)).filter
        (fun x => decide (1 ≤ x) && decide (x ≤ 8))).mergeSort
          (fun a b => decide (a ≤ b))).length ≤ (scenarioTeamEntries team event).length := by
    rw [hperm.length_eq]
    calc ((((scenarioTeamEntries team event).map
        (fun p => rankMapGet event p.1)).filter
          (fun x => decide (1 ≤ x) && decide (x ≤ 8)))).length
        ≤ (((scenarioTeamEntries team event).map
          (fun p => rankMapGet event p.1))).length := List.length_filter_le _ _
      _ = (scenarioTeamEntries team event).length := List.length_map _ _
  exact take_majorize pp hmono (scenarioAvailable team event) havailSorted havailRange
    _ (scenarioTeamEntries team event).length hsublist hlen

theorem scenario_fold_inv (pp : ℕ → ℕ) (team : String)
    (hmono : ∀ p q, 1 ≤ p → p ≤ q → q ≤ 8 → pp q ≤ pp p) :
    ∀ (evs : List MeetEvent) (acc : ℕ × ℕ × ℕ × List EventBreakdown),
      (evs.foldl (scenarioStep pp team) acc).2.2.1 = acc.2.2.1 ∧
      ∀ row ∈ (evs.foldl (scenarioStep pp team) acc).2.2.2,
        row ∈ acc.2.2.2 ∨
          (row.scenario_c_pts = 0 ∧ row.scenario_a_pts ≤ row.scenario_b_pts) := by
  intro evs
  induction evs with
  | nil => exact fun acc => ⟨rfl, fun row hr => Or.inl hr⟩
  | cons ev rest ih =>
    intro acc
    rw [List.foldl_cons]
    obtain ⟨ihc, ihrows⟩ := ih (scenarioStep pp team acc ev)
    constructor
    · rw [ihc]
      unfold scenarioStep
      by_cases he : (scenarioTeamEntries team ev).isEmpty
      · rw [if_pos he]
      · rw [if_neg he]
        simp
    · intro row hrow
      rcases ihrows row hrow with hmem | hP
      · unfold scenarioStep at hmem
        by_cases he : (scenarioTeamEntries team ev).isEmpty
        · rw [if_pos he] at hmem
          exact Or.inl hmem
        · rw [if_neg he] at hmem
          simp only [List.mem_append, List.mem_singleton] at hmem
          rcases hmem with h | rfl
          · exact Or.inl h
          · exact Or.inr ⟨rfl, scenarioApts_le_scenarioBpts pp hmono team ev⟩
      · exact Or.inr hP

/-- C7: for every team and snapshot, the scenario builder's worst-case
total equals the team's current actual points, and in every event
breakdown row best-case points dominate seeds-hold points, which
dominate the (zero) worst-case points. -/
theorem C7_scenarios_ordered (pp : ℕ → ℕ) (hvt : ValidTable pp)
    (team : String) (actual : Dict TeamScore) (state : MeetState) (gender : Gender) :
    (compute_team_scenarios pp team actual state gender).scenario_c
        = actualPts actual team ∧
    (compute_team_scenarios pp team actual state gender).scenario_c
        = (compute_team_scenarios pp team actual state gender).current ∧
    ∀ row ∈ (compute_team_scenarios pp team actual state gender).breakdown,
      row.scenario_c_pts ≤ row.scenario_a_pts ∧
      row.scenario_a_pts ≤ row.scenario_b_pts := by
  have hmono : ∀ p q, 1 ≤ p → p ≤ q → q ≤ 8 → pp q ≤ pp p := by
    intro p q h1 hle h8
    rcases eq_or_lt_of_le hle with rfl | hlt
    · exact le_rfl
    · exact le_of_lt (hvt.2 p q h1 hlt h8)
  obtain ⟨hc, hrows⟩ := scenario_fold_inv pp team hmono (get_upcoming_finals state gender)
    (actualPts actual team, actualPts actual team, actualPts actual team, [])
  refine ⟨hc, hc, ?_⟩
  intro row hrow
  rcases hrows row hrow with h | h
  · exact absurd h (List.not_mem_nil row)
  · exact ⟨h.1 ▸ Nat.zero_le _, h.2⟩

/-- Witness for C7 at the standard table, team A on `stAB`. -/
theorem C7_scenarios_ordered_witness :
    ValidTable ppStd ∧
    ((compute_team_scenarios ppStd "A" [] stAB .men).scenario_c
        = actualPts [] "A" ∧
    (compute_team_scenarios ppStd "A" [] stAB .men).scenario_c
        = (compute_team_scenarios ppStd "A" [] stAB .men).current ∧
    ∀ row ∈ (compute_team_scenarios ppStd "A" [] stAB .men).breakdown,
      row.scenario_c_pts ≤ row.scenario_a_pts ∧
      row.scenario_a_pts ≤ row.scenario_b_pts) :=
  ⟨ppStd_valid, C7_scenarios_ordered ppStd ppStd_valid "A" [] stAB .men⟩

/-! ### Single-entrant determinism (towards C4) -/

theorem pickAux_single_getD (r p : ℚ) : (pickAux r 0 [p]).getD 0 = 0 := by
  rw [pickAux]
  by_cases h : r ≤ 0 + p
  · rw [if_pos h]
    rfl
  · rw [if_neg h, pickAux]
    rfl

theorem simEvent_single (pp : ℕ → ℕ) (rng : ℕ → ℚ) (e : EventEntry) (scores : Dict ℚ)
    (k : ℕ) (hpp : 0 < pp 1) :
    simEvent pp rng [(e, 1)] 1 scores k
      = some (dSet scores e.athlete.team
          (dGetD scores e.athlete.team 0 + (pp 1 : ℚ)), k + 1) := by
  rw [simEvent]
  rw [if_neg (by norm_num : ¬ (1 : ℕ) > 8)]
  dsimp only
  simp only [List.map_cons, List.map_nil, List.sum_cons, List.sum_nil, add_zero]
  rw [if_neg (by norm_num : ¬ (1 : ℚ) ≤ 0)]
  rw [pickAux_single_getD]
  have hpop : popIdx [(e, (1 : ℚ))] 0 = some ((e, 1), []) := rfl
  have hg : ppGet pp 1 = pp 1 := by
    simp [ppGet, ppMem]
  simp only [hg, if_pos hpp]
  split
  · rename_i heq
    rw [hpop] at heq
    exact Option.noConfusion heq
  · rename_i w re2 heq
    rw [hpop] at heq
    cases heq
    rw [simEvent]

theorem eventProbs_single (event : MeetEvent) (e : EventEntry)
    (h : _rank_entries_by_seed event = [e]) :
    eventProbs event = some ([e], [1]) := by
  simp only [eventProbs, h, List.length_cons, List.length_nil]
  norm_num [_seed_rank_to_strength, divQ?, List.range_succ, List.mapM_cons]
  rfl

/-- C4: `compute_win_probability` never faults: for every snapshot,
score dict, iteration count and random stream, every division either
has a nonzero divisor or is short-circuited (including an upcoming
final all of whose entries lack an athlete name), so the `Option`-
monadic embedding always returns `some`; and an event whose ranking
holds a single named entrant deterministically awards that entrant
place 1 (its team gains exactly `PLACE_POINTS[1]`) in every trial,
whatever the random draws. -/
theorem C4_win_probability_never_faults (pp : ℕ → ℕ)
    (actual : Dict TeamScore) (state : MeetState) (gender : Gender)
    (n_iterations : ℕ) (rng : ℕ → ℚ) :
    (compute_win_probability pp actual state gender n_iterations rng).isSome ∧
    (∀ (event : MeetEvent) (e : EventEntry), ValidTable pp →
      _rank_entries_by_seed event = [e] →
      eventProbs event = some ([e], [1]) ∧
      ∀ (scores : Dict ℚ) (k : ℕ),
        simEvent pp rng [(e, 1)] 1 scores k
          = some (dSet scores e.athlete.team
              (dGetD scores e.athlete.team 0 + (pp 1 : ℚ)), k + 1)) := by
  constructor
  · unfold compute_win_probability
    cases hup : wpUpcoming state gender with
    | nil =>
      rw [degenerateWinProb_eq_spec]
      rfl
    | cons u us =>
      have hf : ∀ ev : MeetEvent,
          ((eventProbs ev).map (fun rp => (ev, rp.1, rp.2))).isSome := by
        intro ev
        obtain ⟨v, hv⟩ := Option.isSome_iff_exists.mp (eventProbs_isSome ev)
        rw [hv]
        rfl
      obtain ⟨eds, heds⟩ := Option.isSome_iff_exists.mp
        (mapM_isSome (u :: us) _ (fun ev _ => hf ev))
      refine bind_isSome eds heds ?_
      dsimp only
      obtain ⟨riter, hriter⟩ := Option.isSome_iff_exists.mp
        (runIters_isSome pp rng actual (wpAllTeams actual eds) eds n_iterations 0 [])
      refine bind_isSome riter hriter ?_
      dsimp only
      apply mapM_isSome
      intro t hmemt
      have hpos : 0 < dGetD riter.1 t 0 := by
        have := (List.mem_filter.mp hmemt).2
        simpa using this
      have hnn : ∀ v ∈ dValues riter.1, 0 ≤ v :=
        runIters_nonneg pp rng actual (wpAllTeams actual eds) eds n_iterations 0 [] riter
          hriter (by simp [dValues])
      have htot := total_pos_of_dGetD_pos _ _ hpos hnn
      obtain ⟨v, hv⟩ := Option.isSome_iff_exists.mp (divQ?_isSome (ne_of_gt htot))
      exact bind_isSome v hv rfl
  · intro event e hvt hr
    exact ⟨eventProbs_single event e hr,
      fun scores k => simEvent_single pp rng e scores k (hvt.1 1 le_rfl (by norm_num))⟩

/-- Witness for C4: the simulator runs to completion on `stNine`, and on
the single-entrant shot-put event `evSolo` the lone entrant's team is
deterministically credited `PLACE_POINTS[1] = 10`. -/
theorem C4_win_probability_never_faults_witness :
    (compute_win_probability ppStd [] stNine .men 1 (fun _ => 9/10)).isSome ∧
    ValidTable ppStd ∧
    _rank_entries_by_seed evSolo = [mkEntry "Sol" "S" "16.45"] ∧
    simEvent ppStd (fun _ => 9/10) [(mkEntry "Sol" "S" "16.45", 1)] 1 [] 0
      = some (dSet [] "S" (dGetD [] "S" 0 + (ppStd 1 : ℚ)), 1) :=
  ⟨(C4_win_probability_never_faults ppStd [] stNine .men 1 (fun _ => 9/10)).1,
   ppStd_valid,
   by with_unfolding_all decide,
   ((C4_win_probability_never_faults ppStd [] stNine .men 1 (fun _ => 9/10)).2
     evSolo (mkEntry "Sol" "S" "16.45") ppStd_valid
     (by with_unfolding_all decide)).2 [] 0⟩

/-! ### Credit bookkeeping (towards C5) -/

theorem dSet_ne_nil {α : Type} (d : Dict α) (k : String) (v : α) :
    dSet d k v ≠ [] := by
  cases d with
  | nil => simp [dSet]
  | cons hd t =>
    rw [dSet]
    by_cases h : hd.1 = k
    · rw [if_pos h]
      simp
    · rw [if_neg h]
      simp

theorem dKeys_dSet_nodup {α : Type} :
    ∀ (d : Dict α), (dKeys d).Nodup → ∀ (k : String) (v : α),
      (dKeys (dSet d k v)).Nodup := by
  intro d
  induction d with
  | nil =>
    intro _ k v
    simp [dSet, dKeys]
  | cons hd t ih =>
    intro hnd k v
    rw [dKeys, List.map_cons, List.nodup_cons] at hnd
    rw [dSet]
    by_cases h : hd.1 = k
    · rw [if_pos h]
      subst h
      rw [dKeys, List.map_cons, List.nodup_cons]
      exact hnd
    · rw [if_neg h]
      rw [dKeys, List.map_cons, List.nodup_cons]
      constructor
      · intro hc
        rcases (mem_dKeys_dSet t k hd.1 v).mp hc with h2 | h2
        · exact h h2
        · exact hnd.1 h2
      · exact ih hnd.2 k v

theorem sum_dValues_dSet_add (d : Dict ℚ) (k : String) (c : ℚ) :
    (dValues (dSet d k (dGetD d k 0 + c))).sum = (dValues d).sum + c := by
  induction d with
  | nil =>
    simp [dSet, dValues, dGetD, dFind?]
  | cons hd t ih =>
    rw [dSet]
    by_cases h : hd.1 = k
    · rw [if_pos h]
      have hg : dGetD ((hd.1, hd.2) :: t) k 0 = hd.2 := by
        simp [dGetD, dFind?, h]
      simp only [dValues, List.map_cons, List.sum_cons]
      rw [show dGetD (hd :: t) k 0 = hd.2 from by simp [dGetD, dFind?, h]]
      ring
    · rw [if_neg h]
      simp only [dValues, List.map_cons, List.sum_cons]
      rw [show dGetD (hd :: t) k 0 = dGetD t k 0 from by simp [dGetD, dFind?, h]]
      have ih2 : (List.map Prod.snd (dSet t k (dGetD t k 0 + c))).sum
          = (List.map Prod.snd t).sum + c := ih
      rw [ih2]
      ring

theorem credit_foldlM_sum (c0 : ℚ) :
    ∀ (l : List String) (w w2 : Dict ℚ),
      l.foldlM (fun w3 t => some (dSet w3 t (dGetD w3 t 0 + c0))) w = some w2 →
      (dValues w2).sum = (dValues w).sum + l.length * c0 := by
  intro l
  induction l with
  | nil =>
    intro w w2 h
    cases h
    simp
  | cons a rest ih =>
    intro w w2 h
    rw [List.foldlM_cons, some_bind_eq] at h
    rw [ih _ _ h, sum_dValues_dSet_add]
    simp only [List.length_cons]
    push_cast
    ring

theorem credit_foldlM_keys (c0 : ℚ) :
    ∀ (l : List String) (w w2 : Dict ℚ),
      l.foldlM (fun w3 t => some (dSet w3 t (dGetD w3 t 0 + c0))) w = some w2 →
      ∀ t ∈ dKeys w2, t ∈ dKeys w ∨ t ∈ l := by
  intro l
  induction l with
  | nil =>
    intro w w2 h
    cases h
    exact fun t ht => Or.inl ht
  | cons a rest ih =>
    intro w w2 h t ht
    rw [List.foldlM_cons, some_bind_eq] at h
    rcases ih _ _ h t ht with h2 | h2
    · rcases (mem_dKeys_dSet w a t _).mp h2 with rfl | h3
      · exact Or.inr (List.mem_cons_self _ _)
      · exact Or.inl h3
    · exact Or.inr (List.mem_cons_of_mem _ h2)

theorem credit_foldlM_nodup (c0 : ℚ) :
    ∀ (l : List String) (w w2 : Dict ℚ),
      l.foldlM (fun w3 t => some (dSet w3 t (dGetD w3 t 0 + c0))) w = some w2 →
      (dKeys w).Nodup → (dKeys w2).Nodup := by
  intro l
  induction l with
  | nil =>
    intro w w2 h hw
    cases h
    exact hw
  | cons a rest ih =>
    intro w w2 h hw
    rw [List.foldlM_cons, some_bind_eq] at h
    exact ih _ _ h (dKeys_dSet_nodup w hw a _)

theorem addCredit_props (wc wc2 : Dict ℚ) (leaders : List String)
    (h : addCredit wc leaders = some wc2) (hl : leaders ≠ []) :
    (dValues wc2).sum = (dValues wc).sum + 1 ∧
    (∀ t ∈ dKeys wc2, t ∈ dKeys wc ∨ t ∈ leaders) ∧
    ((dKeys wc).Nodup → (dKeys wc2).Nodup) := by
  cases leaders with
  | nil => exact absurd rfl hl
  | cons a rest =>
    have hm : ((a :: rest).length : ℚ) ≠ 0 := by
      simp only [List.length_cons]
      push_cast
      have h0 : (0 : ℚ) ≤ (rest.length : ℚ) := Nat.cast_nonneg rest.length
      intro hc
      linarith
    rw [addCredit, credit_fun_eq _ hm] at h
    refine ⟨?_, credit_foldlM_keys _ _ _ _ h, credit_foldlM_nodup _ _ _ _ h⟩
    rw [credit_foldlM_sum _ _ _ _ h]
    rw [mul_one_div, div_self hm]

theorem foldl_max_mem_rat (vs : List ℚ) (v0 : ℚ) :
    vs.foldl max v0 = v0 ∨ vs.foldl max v0 ∈ vs := by
  induction vs generalizing v0 with
  | nil => exact Or.inl rfl
  | cons v rest ih =>
    rw [List.foldl_cons]
    rcases ih (max v0 v) with h | h
    · rw [h]
      rcases max_choice v0 v with h2 | h2
      · rw [h2]
        exact Or.inl rfl
      · rw [h2]
        exact Or.inr (List.mem_cons_self _ _)
    · exact Or.inr (List.mem_cons_of_mem _ h)

theorem maxValues_mem (l : List ℚ) (hl : l ≠ []) : maxValues l ∈ l := by
  cases l with
  | nil => exact absurd rfl hl
  | cons v vs =>
    rw [maxValues]
    rcases foldl_max_mem_rat vs v with h | h
    · rw [h]
      exact List.mem_cons_self _ _
    · exact List.mem_cons_of_mem _ h

theorem leaders_ne_nil (scores : Dict ℚ) (hs : scores ≠ []) :
    ((scores.filter (fun p => decide (p.2 = maxValues (dValues scores)))).map
      Prod.fst) ≠ [] := by
  have hv : dValues scores ≠ [] := by
    cases scores with
    | nil => exact absurd rfl hs
    | cons hd t => simp [dValues]
  have hmem := maxValues_mem (dValues scores) hv
  obtain ⟨p, hp, hpv⟩ := List.mem_map.mp hmem
  intro hc
  rw [List.map_eq_nil, List.filter_eq_nil] at hc
  exact hc p hp (by simp [hpv])

theorem simEvent_ne_nil (pp : ℕ → ℕ) (rng : ℕ → ℚ) :
    ∀ (n : ℕ) (re : List (EventEntry × ℚ)), re.length ≤ n →
      ∀ (place : ℕ) (scores : Dict ℚ) (k : ℕ) (out : Dict ℚ × ℕ),
        simEvent pp rng re place scores k = some out → scores ≠ [] → out.1 ≠ [] := by
  intro n
  induction n with
  | zero =>
    intro re hl place scores k out h hs
    match re, hl with
    | [], _ =>
      rw [simEvent] at h
      cases h
      exact hs
  | succ m ih =>
    intro re hl place scores k out h hs
    match re with
    | [] =>
      rw [simEvent] at h
      cases h
      exact hs
    | e0 :: rest =>
      rw [simEvent] at h
      by_cases hp : place > 8
      · rw [if_pos hp] at h
        cases h
        exact hs
      · rw [if_neg hp] at h
        by_cases ht : ((e0 :: rest).map Prod.snd).sum ≤ 0
        · rw [if_pos ht] at h
          cases h
          exact hs
        · rw [if_neg ht] at h
          dsimp only at h
          split at h
          · exact absurd h (by simp)
          · rename_i w re2 heq
            simp only [popIdx, Option.map_eq_some'] at heq
            obtain ⟨a2, ha2, hpair⟩ := heq
            have hlt : ((pickAux ((rng k) * ((e0 :: rest).map Prod.snd).sum) 0
                ((e0 :: rest).map Prod.snd)).getD 0) < (e0 :: rest).length := by
              by_contra hcon
              rw [List.getElem?_eq_none (by omega)] at ha2
              exact Option.noConfusion ha2
            have hre2 : re2.length ≤ m := by
              have h2 := congrArg Prod.snd hpair
              simp only at h2
              rw [← h2, List.length_eraseIdx, if_pos hlt]
              simp only [List.length_cons] at hl ⊢
              omega
            refine ih re2 hre2 _ _ _ out h ?_
            by_cases hpts : 0 < ppGet pp place
            · rw [if_pos hpts]
              exact dSet_ne_nil _ _ _
            · rw [if_neg hpts]
              exact hs

theorem simEvent_keys (pp : ℕ → ℕ) (rng : ℕ → ℚ) :
    ∀ (n : ℕ) (re : List (EventEntry × ℚ)), re.length ≤ n →
      ∀ (place : ℕ) (scores : Dict ℚ) (k : ℕ) (out : Dict ℚ × ℕ),
        simEvent pp rng re place scores k = some out →
        ∀ t ∈ dKeys out.1, t ∈ dKeys scores ∨ ∃ pr ∈ re, pr.1.athlete.team = t := by
  intro n
  induction n with
  | zero =>
    intro re hl place scores k out h hs
    match re, hl with
    | [], _ =>
      rw [simEvent] at h
      cases h
      exact fun ht => Or.inl ht
  | succ m ih =>
    intro re hl place scores k out h t ht
    match re with
    | [] =>
      rw [simEvent] at h
      cases h
      exact Or.inl ht
    | e0 :: rest =>
      rw [simEvent] at h
      by_cases hp : place > 8
      · rw [if_pos hp] at h
        cases h
        exact Or.inl ht
      · rw [if_neg hp] at h
        by_cases htot : ((e0 :: rest).map Prod.snd).sum ≤ 0
        · rw [if_pos htot] at h
          cases h
          exact Or.inl ht
        · rw [if_neg htot] at h
          dsimp only at h
          split at h
          · exact absurd h (by simp)
          · rename_i w re2 heq
            simp only [popIdx, Option.map_eq_some'] at heq
            obtain ⟨a2, ha2, hpair⟩ := heq
            have hlt : ((pickAux ((rng k) * ((e0 :: rest).map Prod.snd).sum) 0
                ((e0 :: rest).map Prod.snd)).getD 0) < (e0 :: rest).length := by
              by_contra hcon
              rw [List.getElem?_eq_none (by omega)] at ha2
              exact Option.noConfusion ha2
            have hw : w ∈ e0 :: rest := by
              have h2 := congrArg Prod.fst hpair
              simp only at h2
              rw [← h2]
              exact List.getElem?_mem ha2
            have hre2sub : ∀ pr ∈ re2, pr ∈ e0 :: rest := by
              have h2 := congrArg Prod.snd hpair
              simp only at h2
              intro pr hpr
              rw [← h2] at hpr
              exact (List.eraseIdx_sublist _ _).mem hpr
            have hre2 : re2.length ≤ m := by
              have h2 := congrArg Prod.snd hpair
              simp only at h2
              rw [← h2, List.length_eraseIdx, if_pos hlt]
              simp only [List.length_cons] at hl ⊢
              omega
            rcases ih re2 hre2 _ _ _ out h t ht with h2 | h2
            · by_cases hpts : 0 < ppGet pp place
              · rw [if_pos hpts] at h2
                rcases (mem_dKeys_dSet scores w.1.athlete.team t _).mp h2 with rfl | h3
                · exact Or.inr ⟨w, hw, rfl⟩
                · exact Or.inl h3
              · rw [if_neg hpts] at h2
                exact Or.inl h2
            · obtain ⟨pr, hpr, hprt⟩ := h2
              exact Or.inr ⟨pr, hre2sub pr hpr, hprt⟩

theorem runEvents_props (pp : ℕ → ℕ) (rng : ℕ → ℚ) :
    ∀ (eds : List (MeetEvent × List EventEntry × List ℚ)) (scores : Dict ℚ) (k : ℕ)
      (out : Dict ℚ × ℕ),
      runEvents pp rng eds scores k = some out →
      (scores ≠ [] → out.1 ≠ []) ∧
      (∀ t ∈ dKeys out.1, t ∈ dKeys scores ∨
        ∃ ed ∈ eds, ∃ e ∈ ed.2.1, e.athlete.team = t) := by
  intro eds
  induction eds with
  | nil =>
    intro scores k out h
    rw [runEvents] at h
    cases h
    exact ⟨fun hs => hs, fun t ht => Or.inl ht⟩
  | cons ed rest ih =>
    intro scores k out h
    rw [runEvents] at h
    obtain ⟨r, hr⟩ := Option.isSome_iff_exists.mp
      (simEvent_isSome pp rng (ed.2.1.zip ed.2.2) 1 scores k)
    rw [hr, some_bind_eq] at h
    obtain ⟨hne, hkeys⟩ := ih _ _ _ h
    constructor
    · intro hs
      exact hne (simEvent_ne_nil pp rng _ _ le_rfl _ _ _ _ hr hs)
    · intro t ht
      rcases hkeys t ht with h2 | h2
      · rcases simEvent_keys pp rng _ _ le_rfl _ _ _ _ hr t h2 with h3 | h3
        · exact Or.inl h3
        · obtain ⟨pr, hpr, hprt⟩ := h3
          have := (List.mem_zip hpr).1
          exact Or.inr ⟨ed, List.mem_cons_self _ _, pr.1, this, hprt⟩
      · obtain ⟨ed2, hed2, he⟩ := h2
        exact Or.inr ⟨ed2, List.mem_cons_of_mem _ hed2, he⟩

theorem runIters_props (pp : ℕ → ℕ) (rng : ℕ → ℚ) (actual : Dict TeamScore)
    (all_teams : List String) (eds : List (MeetEvent × List EventEntry × List ℚ))
    (hat : all_teams ≠ []) :
    ∀ (n k : ℕ) (wc : Dict ℚ) (out : Dict ℚ × ℕ),
      runIters pp rng actual all_teams eds n k wc = some out →
      (dValues out.1).sum = (dValues wc).sum + (n : ℚ) ∧
      (∀ t ∈ dKeys out.1, t ∈ dKeys wc ∨ t ∈ all_teams ∨
        ∃ ed ∈ eds, ∃ e ∈ ed.2.1, e.athlete.team = t) ∧
      ((dKeys wc).Nodup → (dKeys out.1).Nodup) := by
  intro n
  induction n with
  | zero =>
    intro k wc out h
    rw [runIters] at h
    cases h
    exact ⟨by simp, fun t ht => Or.inl ht, fun hw => hw⟩
  | succ m ih =>
    intro k wc out h
    rw [runIters] at h
    obtain ⟨r, hr⟩ := Option.isSome_iff_exists.mp
      (runEvents_isSome pp rng eds (initSimScores actual all_teams) k)
    rw [hr, some_bind_eq] at h
    dsimp only at h
    have hinit : initSimScores actual all_teams ≠ [] := by
      cases hc : all_teams with
      | nil => exact absurd hc hat
      | cons a t => simp [initSimScores, hc]
    have hrprops := runEvents_props pp rng eds (initSimScores actual all_teams) k r hr
    have hrne : r.1 ≠ [] := hrprops.1 hinit
    have hlne := leaders_ne_nil r.1 hrne
    obtain ⟨wc2, hwc2⟩ := Option.isSome_iff_exists.mp (addCredit_isSome wc
      ((r.1.filter (fun p => decide (p.2 = maxValues (dValues r.1)))).map Prod.fst))
    rw [hwc2, some_bind_eq] at h
    obtain ⟨hsum, hkeys, hnd⟩ := ih r.2 wc2 out h
    have hac := addCredit_props wc wc2 _ hwc2 hlne
    refine ⟨?_, ?_, ?_⟩
    · rw [hsum, hac.1]
      push_cast
      ring
    · intro t ht
      rcases hkeys t ht with h2 | h2 | h2
      · rcases hac.2.1 t h2 with h3 | h3
        · exact Or.inl h3
        · obtain ⟨p, hp, hpt⟩ := List.mem_map.mp h3
          have hpk : t ∈ dKeys r.1 := by
            rw [← hpt]
            exact List.mem_map_of_mem Prod.fst (List.mem_of_mem_filter hp)
          rcases hrprops.2 t hpk with h4 | h4
          · rw [initSimScores, dKeys_map_key] at h4
            exact Or.inr (Or.inl h4)
          · exact Or.inr (Or.inr h4)
      · exact Or.inr (Or.inl h2)
      · exact Or.inr (Or.inr h2)
    · intro hw
      exact hnd (hac.2.2 hw)

/-! ### Summation lemmas (towards C5) -/

theorem sum_map_zero_of (g : String → ℚ) :
    ∀ (S : List String), (∀ t ∈ S, g t = 0) → (S.map g).sum = 0 := by
  intro S
  induction S with
  | nil => intro _; rfl
  | cons a rest ih =>
    intro h
    rw [List.map_cons, List.sum_cons, h a (List.mem_cons_self _ _),
      ih (fun t ht => h t (List.mem_cons_of_mem _ ht)), add_zero]

theorem sum_if_single (v : ℚ) (k : String) :
    ∀ (S : List String), S.Nodup → k ∈ S →
      (S.map (fun t => if k = t then v else 0)).sum = v := by
  intro S
  induction S with
  | nil =>
    intro _ hk
    exact absurd hk (List.not_mem_nil k)
  | cons a rest ih =>
    intro hnd hk
    rw [List.nodup_cons] at hnd
    rw [List.map_cons, List.sum_cons]
    by_cases h : k = a
    · rw [if_pos h]
      have hz : (rest.map (fun t => if k = t then v else 0)).sum = 0 := by
        refine sum_map_zero_of _ rest (fun t ht => ?_)
        have hc : ¬ (k = t) := by
          intro hc
          apply hnd.1
          rw [h] at hc
          rw [hc]
          exact ht
        rw [if_neg hc]
      rw [hz, add_zero]
    · rw [if_neg h, zero_add]
      exact ih hnd.2 ((List.mem_cons.mp hk).resolve_left h)

theorem sum_map_add_distrib (S : List String) (a b : String → ℚ) :
    (S.map (fun t => a t + b t)).sum = (S.map a).sum + (S.map b).sum := by
  induction S with
  | nil => simp
  | cons x rest ih =>
    simp only [List.map_cons, List.sum_cons, ih]
    ring

theorem sum_dGetD_eq_values :
    ∀ (d : Dict ℚ), (dKeys d).Nodup →
      ∀ (S : List String), S.Nodup → (∀ k ∈ dKeys d, k ∈ S) →
        (S.map (fun t => dGetD d t 0)).sum = (dValues d).sum := by
  intro d
  induction d with
  | nil =>
    intro _ S _ _
    rw [sum_map_zero_of _ S (fun t _ => by simp [dGetD, dFind?])]
    simp [dValues]
  | cons hd t ih =>
    intro hnd S hS hsub
    rw [dKeys, List.map_cons, List.nodup_cons] at hnd
    have hsplit : (fun t2 => dGetD (hd :: t) t2 0)
        = (fun t2 => dGetD t t2 0 + (if hd.1 = t2 then hd.2 else 0)) := by
      funext t2
      by_cases h : hd.1 = t2
      · rw [if_pos h]
        have h1 : dGetD (hd :: t) t2 0 = hd.2 := by simp [dGetD, dFind?, h]
        have h2 : dGetD t t2 0 = 0 := by
          rw [dGetD, dFind?_eq_none_of_not_mem]
          · rfl
          · rw [← h]
            exact hnd.1
        rw [h1, h2, zero_add]
      · have h1 : dGetD (hd :: t) t2 0 = dGetD t t2 0 := by simp [dGetD, dFind?, h]
        rw [h1, if_neg h, add_zero]
    rw [hsplit, sum_map_add_distrib,
      ih hnd.2 S hS (fun k hk => hsub k (List.mem_cons_of_mem _ hk)),
      sum_if_single hd.2 hd.1 S hS (hsub hd.1 (by simp [dKeys]))]
    simp only [dValues, List.map_cons, List.sum_cons]
    ring

theorem sum_filter_pos_eq (g : String → ℚ) :
    ∀ (S : List String), (∀ t ∈ S, 0 ≤ g t) →
      ((S.filter (fun t => decide (0 < g t))).map g).sum = (S.map g).sum := by
  intro S
  induction S with
  | nil => intro _; rfl
  | cons a rest ih =>
    intro h
    rw [List.filter_cons]
    by_cases hp : 0 < g a
    · rw [if_pos (decide_eq_true hp)]
      rw [List.map_cons, List.sum_cons, List.map_cons, List.sum_cons,
        ih (fun t ht => h t (List.mem_cons_of_mem _ ht))]
    · rw [if_neg (by simp [hp])]
      have ha : g a = 0 := le_antisymm (not_lt.mp hp) (h a (List.mem_cons_self _ _))
      rw [List.map_cons, List.sum_cons, ha, zero_add,
        ih (fun t ht => h t (List.mem_cons_of_mem _ ht))]

theorem sum_map_div (g : String → ℚ) (N : ℚ) :
    ∀ (S : List String), (S.map (fun t => g t / N)).sum = (S.map g).sum / N := by
  intro S
  induction S with
  | nil => simp
  | cons a rest ih =>
    simp only [List.map_cons, List.sum_cons, ih]
    rw [add_div]

/-! ### Decomposing the simulator output (towards C5) -/

theorem evProbs_map_isSome (ev : MeetEvent) :
    ((eventProbs ev).map (fun rp => (ev, rp.1, rp.2))).isSome := by
  obtain ⟨v, hv⟩ := Option.isSome_iff_exists.mp (eventProbs_isSome ev)
  rw [hv]
  rfl

theorem wpEventData_isSome (up : List MeetEvent) : (wpEventData up).isSome :=
  mapM_isSome up _ (fun ev _ => evProbs_map_isSome ev)

theorem wpEventData_mem :
    ∀ (up : List MeetEvent) (eds : List (MeetEvent × List EventEntry × List ℚ)),
      wpEventData up = some eds →
      ∀ ev ∈ up, ∃ rp, eventProbs ev = some rp ∧ (ev, rp.1, rp.2) ∈ eds := by
  intro up
  induction up with
  | nil =>
    intro eds _ ev hev
    exact absurd hev (List.not_mem_nil ev)
  | cons u us ih =>
    intro eds h ev hev
    rw [wpEventData, List.mapM_cons] at h
    obtain ⟨v, hv⟩ := Option.isSome_iff_exists.mp (eventProbs_isSome u)
    rw [hv, Option.map_some', some_bind_eq] at h
    obtain ⟨rest, hrest⟩ := Option.isSome_iff_exists.mp (wpEventData_isSome us)
    have hrest2 : us.mapM
        (fun ev2 => (eventProbs ev2).map (fun rp => (ev2, rp.1, rp.2))) = some rest :=
      hrest
    rw [hrest2, some_bind_eq] at h
    cases h
    rcases List.mem_cons.mp hev with rfl | h2
    · exact ⟨v, hv, List.mem_cons_self _ _⟩
    · obtain ⟨rp, h3, h4⟩ := ih rest hrest ev h2
      exact ⟨rp, h3, List.mem_cons_of_mem _ h4⟩

theorem bind_pure_pair_fst {α β : Type} (m : Option α) (b : β)
    (rp : β × α) (h : (m >>= fun x => pure (b, x)) = some rp) : rp.1 = b := by
  cases m with
  | none => exact absurd h (by simp)
  | some x =>
    rw [some_bind_eq] at h
    cases h
    rfl

theorem eventProbs_fst (ev : MeetEvent) (rp : List EventEntry × List ℚ)
    (h : eventProbs ev = some rp) : rp.1 = _rank_entries_by_seed ev := by
  rw [eventProbs] at h
  exact bind_pure_pair_fst _ _ _ h

theorem mem_rank_entries (ev : MeetEvent) (en : EventEntry)
    (hen : en ∈ ev.entries) (hname : en.athlete.name ≠ "") :
    en ∈ _rank_entries_by_seed ev := by
  rw [_rank_entries_by_seed]
  exact ((List.mergeSort_perm _ _).mem_iff).mpr
    (List.mem_filter.mpr ⟨hen, by simp [hname]⟩)

theorem mem_wpAllTeams_actual (actual : Dict TeamScore)
    (eds : List (MeetEvent × List EventEntry × List ℚ)) (t : String)
    (h : t ∈ dKeys actual) : t ∈ wpAllTeams actual eds := by
  rw [wpAllTeams, mem_dedupFirst, List.mem_append]
  exact Or.inl h

theorem mem_wpAllTeams_eds (actual : Dict TeamScore)
    (eds : List (MeetEvent × List EventEntry × List ℚ))
    (ed : MeetEvent × List EventEntry × List ℚ) (hed : ed ∈ eds)
    (e : EventEntry) (he : e ∈ ed.2.1) :
    e.athlete.team ∈ wpAllTeams actual eds := by
  rw [wpAllTeams, mem_dedupFirst, List.mem_append]
  refine Or.inr ((mem_foldl_append _ eds [] _).mpr ?_)
  exact Or.inr ⟨ed, hed, List.mem_map_of_mem _ he⟩

theorem wpAllTeams_nodup (actual : Dict TeamScore)
    (eds : List (MeetEvent × List EventEntry × List ℚ)) :
    (wpAllTeams actual eds).Nodup := dedupFirst_nodup _

/-- C5: with at least one iteration and at least one upcoming final with
entrants, `compute_win_probability` returns (over exact rationals) the
map keyed by exactly the teams with positive accumulated credit, and —
provided some team exists at all (a nonempty actual-scores map or at
least one named entrant; the spec's sentence omits this proviso, see the
counterexample) — the returned probabilities sum exactly to `1`. -/
theorem C5_probabilities_sum_to_one (pp : ℕ → ℕ) (actual : Dict TeamScore)
    (state : MeetState) (gender : Gender) (n : ℕ) (rng : ℕ → ℚ)
    (hn : 1 ≤ n) (hup : wpUpcoming state gender ≠ [])
    (hteam : actual ≠ [] ∨ ∃ ev ∈ wpUpcoming state gender,
      ∃ en ∈ ev.entries, en.athlete.name ≠ "") :
    ∃ eds wc k2,
      wpEventData (wpUpcoming state gender) = some eds ∧
      runIters pp rng actual (wpAllTeams actual eds) eds n 0 [] = some (wc, k2) ∧
      compute_win_probability pp actual state gender n rng
        = some (((wpAllTeams actual eds).filter
            (fun t => decide (0 < dGetD wc t 0))).map
              (fun t => (t, dGetD wc t 0 / (dValues wc).sum))) ∧
      ((((wpAllTeams actual eds).filter
          (fun t => decide (0 < dGetD wc t 0))).map
            (fun t => dGetD wc t 0 / (dValues wc).sum)).sum = 1) := by
  obtain ⟨eds, heds⟩ := Option.isSome_iff_exists.mp
    (wpEventData_isSome (wpUpcoming state gender))
  have hat : wpAllTeams actual eds ≠ [] := by
    rcases hteam with h | ⟨ev, hev, en, hen, hname⟩
    · cases actual with
      | nil => exact absurd rfl h
      | cons p rest =>
        exact List.ne_nil_of_mem
          (mem_wpAllTeams_actual (p :: rest) eds p.1 (List.mem_cons_self _ _))
    · obtain ⟨rp, hrp, hmem⟩ := wpEventData_mem _ eds heds ev hev
      have hr1 : rp.1 = _rank_entries_by_seed ev := eventProbs_fst ev rp hrp
      have henr : en ∈ (ev, rp.1, rp.2).2.1 := by
        dsimp only
        rw [hr1]
        exact mem_rank_entries ev en hen hname
      exact List.ne_nil_of_mem (mem_wpAllTeams_eds actual eds _ hmem en henr)
  obtain ⟨out, hout⟩ := Option.isSome_iff_exists.mp
    (runIters_isSome pp rng actual (wpAllTeams actual eds) eds n 0 [])
  obtain ⟨wc, k2⟩ := out
  have hprops := runIters_props pp rng actual (wpAllTeams actual eds) eds hat
    n 0 [] (wc, k2) hout
  have hsum : (dValues wc).sum = (n : ℚ) := by
    have h1 := hprops.1
    rw [show (dValues ([] : Dict ℚ)).sum = 0 from rfl, zero_add] at h1
    exact h1
  have htot : (dValues wc).sum ≠ 0 := by
    rw [hsum]
    have h0 : 0 < n := hn
    have h1 : (0 : ℚ) < (n : ℚ) := by exact_mod_cast h0
    exact ne_of_gt h1
  have hkeys : ∀ t ∈ dKeys wc, t ∈ wpAllTeams actual eds := by
    intro t ht
    rcases hprops.2.1 t ht with h2 | h2 | h2
    · exact absurd h2 (List.not_mem_nil t)
    · exact h2
    · obtain ⟨ed, hed, e, he, rfl⟩ := h2
      exact mem_wpAllTeams_eds actual eds ed hed e he
  have hnd : (dKeys wc).Nodup := hprops.2.2 List.nodup_nil
  have hnn : ∀ v ∈ dValues wc, 0 ≤ v :=
    runIters_nonneg pp rng actual (wpAllTeams actual eds) eds n 0 [] (wc, k2) hout
      (fun v hv => absurd hv (List.not_mem_nil v))
  have hmapm : ((wpAllTeams actual eds).filter
      (fun t => decide (0 < dGetD wc t 0))).mapM (fun t => do
        let v ← divQ? (dGetD wc t 0) ((dValues wc).sum)
        pure (t, v))
      = some (((wpAllTeams actual eds).filter
          (fun t => decide (0 < dGetD wc t 0))).map
            (fun t => (t, dGetD wc t 0 / (dValues wc).sum))) := by
    apply mapM_eq_map
    intro t _
    rw [show divQ? (dGetD wc t 0) ((dValues wc).sum)
      = some (dGetD wc t 0 / (dValues wc).sum) from by rw [divQ?, if_neg htot]]
    rfl
  have hcwp : compute_win_probability pp actual state gender n rng
      = some (((wpAllTeams actual eds).filter
          (fun t => decide (0 < dGetD wc t 0))).map
            (fun t => (t, dGetD wc t 0 / (dValues wc).sum))) := by
    unfold compute_win_probability
    cases hu : wpUpcoming state gender with
    | nil => exact absurd hu hup
    | cons u us =>
      rw [hu] at heds
      show (do
        let eds2 ← wpEventData (u :: us)
        let all_teams := wpAllTeams actual eds2
        let r ← runIters pp rng actual all_teams eds2 n 0 []
        let wc2 := r.1
        let total := (dValues wc2).sum
        (all_teams.filter (fun t => decide (0 < dGetD wc2 t 0))).mapM (fun t => do
          let v ← divQ? (dGetD wc2 t 0) total
          pure (t, v))) = _
      rw [heds, some_bind_eq]
      dsimp only
      rw [hout, some_bind_eq]
      dsimp only
      exact hmapm
  have hsum1 : (((wpAllTeams actual eds).filter
      (fun t => decide (0 < dGetD wc t 0))).map
        (fun t => dGetD wc t 0 / (dValues wc).sum)).sum = 1 := by
    rw [sum_map_div]
    rw [sum_filter_pos_eq (fun t => dGetD wc t 0) (wpAllTeams actual eds)
      (fun t _ => dGetD_nonneg wc t hnn)]
    rw [sum_dGetD_eq_values wc hnd (wpAllTeams actual eds)
      (wpAllTeams_nodup actual eds) hkeys]
    exact div_self htot
  exact ⟨eds, wc, k2, heds, hout, hcwp, hsum1⟩

/-- Witness for C5: on the two-entrant snapshot `stAB` with one
iteration, the returned probabilities sum to `1`. -/
theorem C5_probabilities_sum_to_one_witness :
    (1 ≤ 1) ∧ wpUpcoming stAB .men ≠ [] ∧
    (∃ ev ∈ wpUpcoming stAB .men, ∃ en ∈ ev.entries, en.athlete.name ≠ "") ∧
    (∃ eds wc k2,
      wpEventData (wpUpcoming stAB .men) = some eds ∧
      runIters ppStd (fun _ => 0) [] (wpAllTeams [] eds) eds 1 0 [] = some (wc, k2) ∧
      compute_win_probability ppStd [] stAB .men 1 (fun _ => 0)
        = some (((wpAllTeams [] eds).filter
            (fun t => decide (0 < dGetD wc t 0))).map
              (fun t => (t, dGetD wc t 0 / (dValues wc).sum))) ∧
      ((((wpAllTeams [] eds).filter
          (fun t => decide (0 < dGetD wc t 0))).map
            (fun t => dGetD wc t 0 / (dValues wc).sum)).sum = 1)) :=
  ⟨le_rfl, by with_unfolding_all decide, by with_unfolding_all decide,
   C5_probabilities_sum_to_one ppStd [] stAB .men 1 (fun _ => 0) le_rfl
     (by with_unfolding_all decide) (Or.inr (by with_unfolding_all decide))⟩

/-- Counterexample to C5 as stated: `stUnnamed` has one upcoming final
with a (nameless) entrant, yet with one iteration
`compute_win_probability` returns the empty map, whose probabilities sum
to `0`, not `1` — every trial ends with no positive credit because the
nameless entrant is dropped by the ranking and no team exists. -/
theorem C5_counterexample_unnamed_entries :
    (wpUpcoming stUnnamed .men).length = 1 ∧
    compute_win_probability ppStd [] stUnnamed .men 1 (fun _ => 0) = some [] ∧
    (dValues ([] : Dict ℚ)).sum = 0 ∧ (0 : ℚ) ≠ 1 := by
  refine ⟨by with_unfolding_all decide, by with_unfolding_all decide, rfl, by norm_num⟩

/-- C2: the two-entrant half of the tie law holds — on a table with
exactly two scoring places, two entrants whose resolved keys differ by
less than `1e-3` each receive exactly `(points(1)+points(2))/2` — but
the block-total law fails in the code: on `stNine` the tied pair of
teams T and U straddles the place-8 cut-off, `compute_seed_projection`
awards each member the average over the truncated in-range places, and
the block total `1 + 1` exceeds `PLACE_POINTS[8] + PLACE_POINTS[9] =
1 + 0`, the sum of table values for the underlying places it occupies. -/
theorem C2_tie_block_overaward :
    (dGetD (compute_seed_projection ppTwo [] stTie12 .men) "T" 0
        = ((ppGet ppTwo 1 : ℚ) + (ppGet ppTwo 2 : ℚ)) / 2 ∧
      dGetD (compute_seed_projection ppTwo [] stTie12 .men) "U" 0
        = ((ppGet ppTwo 1 : ℚ) + (ppGet ppTwo 2 : ℚ)) / 2) ∧
    dGetD (compute_seed_projection ppStd [] stNine .men) "T" 0 = 1 ∧
    dGetD (compute_seed_projection ppStd [] stNine .men) "U" 0 = 1 ∧
    (dGetD (compute_seed_projection ppStd [] stNine .men) "T" 0
        + dGetD (compute_seed_projection ppStd [] stNine .men) "U" 0
      > (ppGet ppStd 8 : ℚ) + (ppGet ppStd 9 : ℚ)) := by
  refine ⟨⟨by with_unfolding_all decide, by with_unfolding_all decide⟩,
    by with_unfolding_all decide, by with_unfolding_all decide,
    by with_unfolding_all decide⟩

/-- C3: the metric half holds — on the shot-put event `evSolo` the sort
key of the mark `16.45` is the negation `-16.45` of its magnitude — but
for a feet-inches mark the code negates twice: `_mark_to_seconds`
already returns `-(160.5)` for `13-04.50`, `_seed_sort_key` negates it
again to `+160.5` (not the claimed negation of the magnitude), and
ascending sort on the long-jump event `evJump` therefore places the
*shorter* jump `12-00` first instead of best-first. -/
theorem C3_field_key_double_negation :
    _seed_sort_key (mkEntry "Sol" "S" "16.45") evSolo = -(1645/100) ∧
    _mark_to_seconds "13-04.50" = some (-(321/2)) ∧
    _seed_sort_key (mkEntry "Lou" "L" "13-04.50") evJump = 321/2 ∧
    ((321 : ℚ)/2 ≠ -(321/2)) ∧
    _rank_entries_by_seed evJump
      = [ mkEntry "Sam" "S" "12-00", mkEntry "Lou" "L" "13-04.50" ] := by
  refine ⟨by with_unfolding_all decide, by with_unfolding_all decide,
    by with_unfolding_all decide, by norm_num,
    by with_unfolding_all decide⟩

/-! ### The tabulator keys every record by its own team (towards C9) -/

theorem dFind?_mem_pair {α : Type} :
    ∀ (d : Dict α) (k : String) (v : α), dFind? d k = some v → (k, v) ∈ d := by
  intro d
  induction d with
  | nil =>
    intro k v h
    exact absurd h (by simp [dFind?])
  | cons hd t ih =>
    intro k v h
    simp only [dFind?] at h
    by_cases he : hd.1 = k
    · rw [if_pos he] at h
      cases h
      rw [← he]
      exact List.mem_cons_self _ _
    · rw [if_neg he] at h
      exact List.mem_cons_of_mem _ (ih k v h)

theorem mem_dSet_cases {α : Type} :
    ∀ (d : Dict α) (k : String) (v : α) (p : String × α),
      p ∈ dSet d k v → p = (k, v) ∨ p ∈ d := by
  intro d
  induction d with
  | nil =>
    intro k v p hp
    simp only [dSet] at hp
    rcases List.mem_singleton.mp hp with rfl
    exact Or.inl rfl
  | cons hd t ih =>
    intro k v p hp
    simp only [dSet] at hp
    by_cases he : hd.1 = k
    · rw [if_pos he] at hp
      rcases List.mem_cons.mp hp with rfl | h2
      · exact Or.inl rfl
      · exact Or.inr (List.mem_cons_of_mem _ h2)
    · rw [if_neg he] at hp
      rcases List.mem_cons.mp hp with rfl | h2
      · exact Or.inr (List.mem_cons_self _ _)
      · rcases ih k v p h2 with h3 | h3
        · exact Or.inl h3
        · exact Or.inr (List.mem_cons_of_mem _ h3)

theorem goc_team_keyed (sc : Dict TeamScore) (t : String) (g : Gender)
    (h : ∀ p ∈ sc, p.2.team = p.1) :
    ∀ p ∈ _get_or_create sc t g, p.2.team = p.1 := by
  intro p hp
  unfold _get_or_create at hp
  cases hf : dFind? sc t with
  | some ts =>
    rw [hf] at hp
    exact h p hp
  | none =>
    rw [hf] at hp
    have hp2 : p ∈ sc ++ [(t, ({ team := t, gender := g } : TeamScore))] := hp
    rcases List.mem_append.mp hp2 with h2 | h2
    · exact h p h2
    · rcases List.mem_singleton.mp h2 with rfl
      rfl

theorem creditTeam_team_keyed (sc : Dict TeamScore) (t : String) (g : Gender)
    (pts : ℕ) (lbl : String) (h : ∀ p ∈ sc, p.2.team = p.1) :
    ∀ p ∈ creditTeam sc t g pts lbl, p.2.team = p.1 := by
  intro p hp
  unfold creditTeam at hp
  cases hf : dFind? (_get_or_create sc t g) t with
  | none =>
    rw [hf] at hp
    exact goc_team_keyed sc t g h p hp
  | some ts =>
    rw [hf] at hp
    have hp2 : p ∈ dSet (_get_or_create sc t g) t
        { ts with actual_points := ts.actual_points + pts,
                  events_scored := ts.events_scored ++ [lbl] } := hp
    rcases mem_dSet_cases _ _ _ p hp2 with rfl | h2
    · exact goc_team_keyed sc t g h (t, ts) (dFind?_mem_pair _ t ts hf)
    · exact goc_team_keyed sc t g h p h2

theorem scoreEntry_team_keyed (pp : ℕ → ℕ) (g : Gender) (en : String)
    (sc : Dict TeamScore) (a : Athlete) (h : ∀ p ∈ sc, p.2.team = p.1) :
    ∀ p ∈ scoreEntry pp g en sc a, p.2.team = p.1 := by
  intro p hp
  unfold scoreEntry at hp
  cases hfp : a.final_place with
  | none =>
    rw [hfp] at hp
    exact h p hp
  | some pl =>
    rw [hfp] at hp
    dsimp only at hp
    by_cases hc : pl ≠ 0 ∧ ppMem pl
    · rw [if_pos hc] at hp
      exact creditTeam_team_keyed sc a.team g (pp pl) _ h p hp
    · rw [if_neg hc] at hp
      exact h p hp

theorem fold_entries_team_keyed (pp : ℕ → ℕ) (g : Gender) (en : String) :
    ∀ (es : List EventEntry) (sc : Dict TeamScore), (∀ p ∈ sc, p.2.team = p.1) →
      ∀ p ∈ es.foldl (fun sc2 e => scoreEntry pp g en sc2 e.athlete) sc,
        p.2.team = p.1 := by
  intro es
  induction es with
  | nil =>
    intro sc h
    exact h
  | cons e rest ih =>
    intro sc h
    rw [List.foldl_cons]
    exact ih _ (scoreEntry_team_keyed pp g en sc e.athlete h)

theorem fold_finals_team_keyed (pp : ℕ → ℕ) (g : Gender) :
    ∀ (evs : List MeetEvent) (sc : Dict TeamScore), (∀ p ∈ sc, p.2.team = p.1) →
      ∀ p ∈ evs.foldl (fun sc2 ev => ev.entries.foldl
          (fun sc3 e => scoreEntry pp g ev.event_name sc3 e.athlete) sc2) sc,
        p.2.team = p.1 := by
  intro evs
  induction evs with
  | nil =>
    intro sc h
    exact h
  | cons ev rest ih =>
    intro sc h
    rw [List.foldl_cons]
    exact ih _ (fold_entries_team_keyed pp g ev.event_name ev.entries sc h)

theorem fold_athletes_team_keyed (pp : ℕ → ℕ) (g : Gender) (en : String) :
    ∀ (as : List Athlete) (sc : Dict TeamScore), (∀ p ∈ sc, p.2.team = p.1) →
      ∀ p ∈ as.foldl (fun sc2 a => scoreEntry pp g en sc2 a) sc,
        p.2.team = p.1 := by
  intro as
  induction as with
  | nil =>
    intro sc h
    exact h
  | cons a rest ih =>
    intro sc h
    rw [List.foldl_cons]
    exact ih _ (scoreEntry_team_keyed pp g en sc a h)

theorem fold_combined_team_keyed (pp : ℕ → ℕ) (g : Gender) :
    ∀ (cs : List CombinedEventResult) (sc : Dict TeamScore),
      (∀ p ∈ sc, p.2.team = p.1) →
      ∀ p ∈ cs.foldl (fun sc2 c => c.athletes.foldl
          (fun sc3 a => scoreEntry pp g c.event_name sc3 a) sc2) sc,
        p.2.team = p.1 := by
  intro cs
  induction cs with
  | nil =>
    intro sc h
    exact h
  | cons c rest ih =>
    intro sc h
    rw [List.foldl_cons]
    exact ih _ (fold_athletes_team_keyed pp g c.event_name c.athletes sc h)

theorem compute_actual_scores_team_keyed (pp : ℕ → ℕ) (state : MeetState)
    (g : Gender) : ∀ p ∈ compute_actual_scores pp state g, p.2.team = p.1 := by
  refine fold_combined_team_keyed pp g _ _ ?_
  refine fold_finals_team_keyed pp g _ _ ?_
  intro p hp
  exact absurd hp (List.not_mem_nil p)

theorem dFind?_actual_team (pp : ℕ → ℕ) (state : MeetState) (g : Gender)
    (k : String) (v : TeamScore)
    (h : dFind? (compute_actual_scores pp state g) k = some v) : v.team = k :=
  compute_actual_scores_team_keyed pp state g (k, v) (dFind?_mem_pair _ k v h)

/-- C9: `compute_seed_projection` performs no rounding — on `stTie34`
the tie-split leaves team T the fractional value `11/2`, whose
denominator is not `1` — and whenever `run_all_analysis` returns a
report, every stored `seed_projection` is the orchestrator's truncation
`pyInt` of that team's raw projection value. -/
theorem C9_projection_fractional_rounded_by_orchestrator :
    (dGetD (compute_seed_projection ppStd [] stTie34 .men) "T" 0 = 11/2 ∧
      ((11 : ℚ)/2).den ≠ 1) ∧
    ∀ (pp : ℕ → ℕ) (n : ℕ) (rng : ℕ → ℚ) (state : MeetState) (gender : Gender)
      (rep : AnalysisReport), run_all_analysis pp n rng state gender = some rep →
      ∀ ts ∈ rep.team_scores,
        ts.seed_projection = pyInt (dGetD (compute_seed_projection pp
          (compute_actual_scores pp state gender) state gender) ts.team
          (ts.actual_points : ℚ)) := by
  constructor
  · exact ⟨by with_unfolding_all decide, by with_unfolding_all decide⟩
  · intro pp n rng state gender rep h
    unfold run_all_analysis at h
    dsimp only at h
    cases hwp : compute_win_probability pp (compute_actual_scores pp state gender)
        state gender n rng with
    | none =>
      rw [hwp] at h
      exact absurd h (by simp)
    | some wps =>
      rw [hwp, some_bind_eq] at h
      cases h
      intro ts hts
      obtain ⟨team, hteam, hmap⟩ :=
        List.mem_map.mp (((List.mergeSort_perm _ _).mem_iff).mp hts)
      subst hmap
      dsimp only
      cases hfind : dFind? (compute_actual_scores pp state gender) team with
      | none => rfl
      | some v =>
        have hv : v.team = team :=
          dFind?_actual_team pp state gender team v hfind
        rw [Option.getD_some, hv]

/-- Witness for C9: on the empty snapshot the orchestrator returns the
empty report, and its (empty) team-score list satisfies the rounding
relation. -/
theorem C9_projection_rounded_witness :
    run_all_analysis ppStd 0 (fun _ => 0) stEmpty .men
      = some { gender := .men, team_scores := [], leverage_index := [],
               actual := [], state := stEmpty } ∧
    ∀ ts ∈ ({ gender := .men, team_scores := [], leverage_index := [],
              actual := [], state := stEmpty } : AnalysisReport).team_scores,
      ts.seed_projection = pyInt (dGetD (compute_seed_projection ppStd
        (compute_actual_scores ppStd stEmpty .men) stEmpty .men) ts.team
        (ts.actual_points : ℚ)) :=
  ⟨by with_unfolding_all decide,
   C9_projection_fractional_rounded_by_orchestrator.2 ppStd 0 (fun _ => 0)
     stEmpty .men _ (by with_unfolding_all decide)⟩

/-- C6: when no upcoming final has entrants, `compute_win_probability`
returns the empty map for an empty actual-scores map, and otherwise the
degenerate distribution giving `1/k` to each of the `k` teams tied at
the maximum actual points and `0.0` to every other team of the map —
independent of the iteration count and of the random stream (no
simulation runs). -/
theorem C6_no_upcoming_degenerate_distribution (pp : ℕ → ℕ) (actual : Dict TeamScore)
    (state : MeetState) (gender : Gender) (n1 n2 : ℕ) (rng1 rng2 : ℕ → ℚ)
    (h : wpUpcoming state gender = []) :
    compute_win_probability pp actual state gender n1 rng1
        = some (degenerateDistributionSpec actual) ∧
    compute_win_probability pp actual state gender n1 rng1
        = compute_win_probability pp actual state gender n2 rng2 := by
  unfold compute_win_probability
  rw [h]
  exact ⟨degenerateWinProb_eq_spec actual, rfl⟩

/-- Witness for C6 on the empty snapshot with teams X, Y tied at the
top: each receives probability 1/2, Z receives 0.0. -/
theorem C6_no_upcoming_degenerate_distribution_witness :
    wpUpcoming stEmpty .men = [] ∧
    compute_win_probability ppStd exActual3 stEmpty .men 5 (fun _ => 0)
        = some (degenerateDistributionSpec exActual3) ∧
    degenerateDistributionSpec exActual3
        = [ ( "X", 1/2), ( "Y", 1/2), ( "Z", 0) ] :=
  ⟨by decide,
   (C6_no_upcoming_degenerate_distribution ppStd exActual3 stEmpty .men 5 7
      (fun _ => 0) (fun _ => 1/3) (by decide)).1,
   by with_unfolding_all decide⟩

end LiveMeet
